import Mathlib

/-!
Verification of the Resource Governance and Execution Safety layer:
TaskQueue (server/core/task_queue.py), CacheManager
(server/core/managers/cache_manager.py), FallbackManager
(server/core/managers/fallback_manager.py), MemoryWatchdog
(server/core/memory_watchdog.py) and WorkerWatchdog
(ai-worker/core/worker_watchdog.py).

The Python code stores the task queue as a flat list maintained by the
standard-library `heapq` module (an array-encoded binary min-heap with
children of index `i` at `2*i+1` and `2*i+2`).  `heapq` is external to the
repository, so it is embedded here as an executable array-encoded binary
min-heap over `List` with the same layout and the same observable contract
(push keeps the heap shape and adds the element, pop returns the root,
heapify re-establishes the shape, all operations permute the contents);
those contract facts are proved, not assumed.  Item comparison follows the
`@dataclass(order=True)` ordering of `TaskItem`: lexicographic on the
`(priority, timestamp)` pair, the remaining fields carry no ordering.

Machine integers and `time.time()` floats are embedded as `Nat` (the code
only ever compares and subtracts timestamps, never does float-specific
arithmetic); Python's negative-result subtractions guarded by `>` against a
nonnegative bound coincide with truncated `Nat` subtraction in every
comparison the code performs.  Fallible filesystem deletion is embedded as
a `deleteOk` oracle, and `raise`/`except` control flow as `Except`.
-/

set_option maxHeartbeats 1600000

namespace Lyra

/-! ### Array-encoded binary heap positions

`Desc i j` says index `j` lies in the subtree rooted at index `i` of the
implicit binary tree on array positions (children of `a` at `2*a+1` and
`2*a+2`). -/

inductive Desc : Nat → Nat → Prop where
  | refl (i : Nat) : Desc i i
  | left {i j : Nat} : Desc (2 * i + 1) j → Desc i j
  | right {i j : Nat} : Desc (2 * i + 2) j → Desc i j

theorem Desc.le : ∀ {i j : Nat}, Desc i j → i ≤ j := by
  intro i j h
  induction h with
  | refl => exact Nat.le_refl _
  | left _ ih => omega
  | right _ ih => omega

theorem Desc.lower_bound : ∀ {i j : Nat}, Desc i j → j = i ∨ 2 * i + 1 ≤ j := by
  intro i j h
  cases h with
  | refl => exact Or.inl rfl
  | left h => exact Or.inr h.le
  | right h => exact Or.inr (by have := h.le; omega)

theorem Desc.trans : ∀ {i j k : Nat}, Desc i j → Desc j k → Desc i k := by
  intro i j k hij hjk
  induction hij with
  | refl => exact hjk
  | left _ ih => exact Desc.left (ih hjk)
  | right _ ih => exact Desc.right (ih hjk)

theorem Desc.child {i j : Nat} (h : j = 2 * i + 1 ∨ j = 2 * i + 2) : Desc i j := by
  rcases h with h | h <;> subst h
  · exact Desc.left (Desc.refl _)
  · exact Desc.right (Desc.refl _)

theorem Desc.to_parent : ∀ {i j : Nat}, Desc i j → i = j ∨ Desc i ((j - 1) / 2) := by
  intro i j h
  induction h with
  | refl => exact Or.inl rfl
  | @left i j h ih =>
    rcases ih with h2 | h2
    · right
      have : (j - 1) / 2 = i := by omega
      rw [this]; exact Desc.refl i
    · exact Or.inr (Desc.left h2)
  | @right i j h ih =>
    rcases ih with h2 | h2
    · right
      have : (j - 1) / 2 = i := by omega
      rw [this]; exact Desc.refl i
    · exact Or.inr (Desc.right h2)

theorem Desc.zero : ∀ j, Desc 0 j := by
  intro j
  induction j using Nat.strong_induction_on with
  | _ j ih =>
    rcases Nat.eq_zero_or_pos j with h | h
    · subst h; exact Desc.refl 0
    · have hp : (j - 1) / 2 < j := by omega
      have hparent := ih _ hp
      have hchild : Desc ((j - 1) / 2) j := by
        apply Desc.child
        omega
      exact hparent.trans hchild

theorem Desc.not_of_child {i a b : Nat} (hna : ¬ Desc i a)
    (hb : b = 2 * a + 1 ∨ b = 2 * a + 2) (hbi : b ≠ i) : ¬ Desc i b := by
  intro hdb
  rcases hdb.to_parent with h | h
  · exact hbi h.symm
  · have : (b - 1) / 2 = a := by omega
    rw [this] at h
    exact hna h

theorem Desc.comparable : ∀ {x a b : Nat}, Desc a x → Desc b x → Desc a b ∨ Desc b a := by
  intro x
  induction x using Nat.strong_induction_on with
  | _ x ih =>
    intro a b ha hb
    by_cases hax : a = x
    · subst hax; exact Or.inr hb
    by_cases hbx : b = x
    · subst hbx; exact Or.inl ha
    have hx0 : 0 < x := by
      rcases ha.lower_bound with h | h
      · exact absurd h.symm hax
      · omega
    have ha2 : Desc a ((x - 1) / 2) := by
      rcases ha.to_parent with h | h
      · exact absurd h hax
      · exact h
    have hb2 : Desc b ((x - 1) / 2) := by
      rcases hb.to_parent with h | h
      · exact absurd h hbx
      · exact h
    exact ih ((x - 1) / 2) (by omega) ha2 hb2

theorem Desc.sibling_not_left {i : Nat} : ¬ Desc (2 * i + 1) (2 * i + 2) := by
  intro h
  rcases h.lower_bound with h2 | h2 <;> omega

theorem Desc.sibling_not_right {i : Nat} : ¬ Desc (2 * i + 2) (2 * i + 1) := by
  intro h
  have := h.le; omega

theorem Desc.siblings_disjoint {i x : Nat} (h1 : Desc (2 * i + 1) x)
    (h2 : Desc (2 * i + 2) x) : False := by
  rcases Desc.comparable h1 h2 with h | h
  · exact Desc.sibling_not_left h
  · exact Desc.sibling_not_right h

/-! ### Position swap on lists -/

def swapL {α : Type} (l : List α) (i j : Nat) : List α :=
  if h : i < l.length ∧ j < l.length then
    (l.set i (l.get ⟨j, h.2⟩)).set j (l.get ⟨i, h.1⟩)
  else l

theorem swapL_length {α : Type} (l : List α) (i j : Nat) :
    (swapL l i j).length = l.length := by
  unfold swapL
  split <;> simp

theorem cons_set_perm {α : Type} :
    ∀ (xs : List α) (j : Nat) (x : α) (hj : j < xs.length),
      ((xs.get ⟨j, hj⟩) :: xs.set j x).Perm (x :: xs) := by
  intro xs
  induction xs with
  | nil => intro j x hj; simp at hj
  | cons y ys ih =>
    intro j x hj
    cases j with
    | zero =>
      simpa using List.Perm.swap x y ys
    | succ k =>
      have hk : k < ys.length := by simpa using hj
      have h1 : ((y :: ys).get ⟨k + 1, hj⟩ :: y :: ys.set k x).Perm
          (y :: (ys.get ⟨k, hk⟩) :: ys.set k x) := by
        simpa using List.Perm.swap y (ys.get ⟨k, hk⟩) (ys.set k x)
      have h2 : (y :: (ys.get ⟨k, hk⟩) :: ys.set k x).Perm (y :: x :: ys) :=
        List.Perm.cons y (ih k x hk)
      have h3 : (y :: x :: ys).Perm (x :: y :: ys) := List.Perm.swap x y ys
      simpa using (h1.trans h2).trans h3

theorem set_set_perm {α : Type} :
    ∀ (l : List α) (i j : Nat) (hi : i < l.length) (hj : j < l.length),
      ((l.set i (l.get ⟨j, hj⟩)).set j (l.get ⟨i, hi⟩)).Perm l := by
  intro l
  induction l with
  | nil => intro i j hi; simp at hi
  | cons x xs ih =>
    intro i j hi hj
    cases i with
    | zero =>
      cases j with
      | zero => simp
      | succ k =>
        have hk : k < xs.length := by simpa using hj
        have : ((x :: xs).set 0 ((x :: xs).get ⟨k + 1, hj⟩)).set (k + 1)
            ((x :: xs).get ⟨0, hi⟩) = (xs.get ⟨k, hk⟩) :: xs.set k x := by
          simp [List.set]
        rw [this]
        exact cons_set_perm xs k x hk
    | succ i0 =>
      have hi0 : i0 < xs.length := by simpa using hi
      cases j with
      | zero =>
        have : ((x :: xs).set (i0 + 1) ((x :: xs).get ⟨0, hj⟩)).set 0
            ((x :: xs).get ⟨i0 + 1, hi⟩) = (xs.get ⟨i0, hi0⟩) :: xs.set i0 x := by
          simp [List.set]
        rw [this]
        exact cons_set_perm xs i0 x hi0
      | succ j0 =>
        have hj0 : j0 < xs.length := by simpa using hj
        have : ((x :: xs).set (i0 + 1) ((x :: xs).get ⟨j0 + 1, hj⟩)).set (j0 + 1)
            ((x :: xs).get ⟨i0 + 1, hi⟩) =
            x :: ((xs.set i0 (xs.get ⟨j0, hj0⟩)).set j0 (xs.get ⟨i0, hi0⟩)) := by
          simp [List.set]
        rw [this]
        exact List.Perm.cons x (ih i0 j0 hi0 hj0)

theorem swapL_perm {α : Type} (l : List α) (i j : Nat) : (swapL l i j).Perm l := by
  unfold swapL
  split
  next h => exact set_set_perm l i j h.1 h.2
  next => exact List.Perm.refl l

theorem swapL_getElem?_fst {α : Type} (l : List α) {i j : Nat}
    (hi : i < l.length) (hj : j < l.length) : (swapL l i j)[i]? = l[j]? := by
  unfold swapL
  rw [dif_pos ⟨hi, hj⟩]
  by_cases hij : i = j
  · subst hij
    simp [List.getElem?_set, hi, List.get_eq_getElem, List.getElem?_eq_getElem hi]
  · simp [List.getElem?_set, hij, Ne.symm hij, hi, hj, List.get_eq_getElem,
      List.getElem?_eq_getElem hj]

theorem swapL_getElem?_snd {α : Type} (l : List α) {i j : Nat}
    (hi : i < l.length) (hj : j < l.length) : (swapL l i j)[j]? = l[i]? := by
  unfold swapL
  rw [dif_pos ⟨hi, hj⟩]
  simp [List.getElem?_set, hj, hi, List.get_eq_getElem, List.getElem?_eq_getElem hi]

theorem swapL_getElem?_other {α : Type} (l : List α) {i j p : Nat}
    (hpi : p ≠ i) (hpj : p ≠ j) : (swapL l i j)[p]? = l[p]? := by
  unfold swapL
  split
  · have h1 : i ≠ p := Ne.symm hpi
    have h2 : j ≠ p := Ne.symm hpj
    simp [List.getElem?_set, h1, h2]
  · rfl

/-! ### Binary min-heap operations (model of the stdlib heapq contract)

Parameterized by a strict comparison `lt` (Python's `<` on items).  The
heap property states that no child compares strictly below its parent. -/

section HeapOps

variable {α : Type} (lt : α → α → Bool)

def IsHeap (l : List α) : Prop :=
  ∀ a b x y, (b = 2 * a + 1 ∨ b = 2 * a + 2) → l[a]? = some x → l[b]? = some y →
    lt y x = false

def smallerChild (l : List α) (i : Nat) (h1 : 2 * i + 1 < l.length) : Nat :=
  if h2 : 2 * i + 2 < l.length then
    if lt (l.get ⟨2 * i + 1, h1⟩) (l.get ⟨2 * i + 2, h2⟩) then 2 * i + 1 else 2 * i + 2
  else 2 * i + 1

theorem smallerChild_lt_length (l : List α) (i : Nat) (h1 : 2 * i + 1 < l.length) :
    smallerChild lt l i h1 < l.length := by
  unfold smallerChild
  split
  next h2 => split <;> omega
  next => exact h1

theorem smallerChild_gt (l : List α) (i : Nat) (h1 : 2 * i + 1 < l.length) :
    i < smallerChild lt l i h1 := by
  unfold smallerChild
  split
  next h2 => split <;> omega
  next => omega

theorem smallerChild_cases (l : List α) (i : Nat) (h1 : 2 * i + 1 < l.length) :
    smallerChild lt l i h1 = 2 * i + 1 ∨ smallerChild lt l i h1 = 2 * i + 2 := by
  unfold smallerChild
  split
  next h2 => split
             · exact Or.inl rfl
             · exact Or.inr rfl
  next => exact Or.inl rfl

def siftDown (l : List α) (i : Nat) : List α :=
  if h1 : 2 * i + 1 < l.length then
    let m := smallerChild lt l i h1
    have hm : m < l.length := smallerChild_lt_length lt l i h1
    have hi : i < l.length := by omega
    if lt (l.get ⟨m, hm⟩) (l.get ⟨i, hi⟩) then siftDown (swapL l i m) m
    else l
  else l
termination_by l.length - i
decreasing_by
  have hgt := smallerChild_gt lt l i h1
  rw [swapL_length]
  omega

def siftUp (l : List α) (i : Nat) : List α :=
  if h : i ≠ 0 ∧ i < l.length then
    have hp : (i - 1) / 2 < l.length := by omega
    if lt (l.get ⟨i, h.2⟩) (l.get ⟨(i - 1) / 2, hp⟩) then
      siftUp (swapL l i ((i - 1) / 2)) ((i - 1) / 2)
    else l
  else l
termination_by i
decreasing_by omega

def heapPush (l : List α) (x : α) : List α := siftUp lt (l ++ [x]) l.length

def heapPop (l : List α) : Option (α × List α) :=
  match l with
  | [] => none
  | [x] => some (x, [])
  | x :: y :: rest =>
    some (x, siftDown lt (((y :: rest).getLast (by simp)) :: ((y :: rest).dropLast)) 0)

def heapifyAux : Nat → List α → List α
  | 0, l => l
  | k + 1, l => heapifyAux k (siftDown lt l k)

def heapify (l : List α) : List α := heapifyAux lt (l.length / 2) l

theorem siftDown_perm (l : List α) (i : Nat) : (siftDown lt l i).Perm l := by
  induction l, i using siftDown.induct lt with
  | case1 l i h1 m hm hi hlt ih =>
    rw [siftDown]
    simp only [dif_pos h1, if_pos hlt]
    exact ih.trans (swapL_perm l i m)
  | case2 l i h1 m hm hi hlt =>
    rw [siftDown]
    simp only [dif_pos h1, if_neg hlt]
    exact List.Perm.refl l
  | case3 l i h1 =>
    rw [siftDown]
    simp only [dif_neg h1]
    exact List.Perm.refl l

theorem siftDown_length (l : List α) (i : Nat) : (siftDown lt l i).length = l.length :=
  (siftDown_perm lt l i).length_eq

theorem siftUp_perm (l : List α) (i : Nat) : (siftUp lt l i).Perm l := by
  induction l, i using siftUp.induct lt with
  | case1 l i h hp hlt ih =>
    rw [siftUp]
    simp only [dif_pos h, if_pos hlt]
    exact ih.trans (swapL_perm l i ((i - 1) / 2))
  | case2 l i h hp hlt =>
    rw [siftUp]
    simp only [dif_pos h, if_neg hlt]
    exact List.Perm.refl l
  | case3 l i h =>
    rw [siftUp]
    simp only [dif_neg h]
    exact List.Perm.refl l

theorem heapPush_perm (l : List α) (x : α) : (heapPush lt l x).Perm (x :: l) := by
  unfold heapPush
  exact (siftUp_perm lt (l ++ [x]) l.length).trans (List.perm_append_singleton x l)

theorem heapPush_length (l : List α) (x : α) : (heapPush lt l x).length = l.length + 1 := by
  have := (heapPush_perm lt l x).length_eq
  simpa using this

theorem heapifyAux_perm : ∀ (k : Nat) (l : List α), (heapifyAux lt k l).Perm l := by
  intro k
  induction k with
  | zero => intro l; exact List.Perm.refl l
  | succ n ih =>
    intro l
    unfold heapifyAux
    exact (ih (siftDown lt l n)).trans (siftDown_perm lt l n)

theorem heapify_perm (l : List α) : (heapify lt l).Perm l := heapifyAux_perm lt _ l

theorem heapPop_none_iff (l : List α) : heapPop lt l = none ↔ l = [] := by
  cases l with
  | nil => simp [heapPop]
  | cons x xs => cases xs <;> simp [heapPop]

theorem heapPop_perm (l : List α) {x : α} {rest : List α}
    (h : heapPop lt l = some (x, rest)) : (x :: rest).Perm l := by
  match l with
  | [] => simp [heapPop] at h
  | [a] =>
    simp only [heapPop, Option.some.injEq, Prod.mk.injEq] at h
    obtain ⟨rfl, rfl⟩ := h
    exact List.Perm.refl _
  | a :: b :: t =>
    simp only [heapPop, Option.some.injEq, Prod.mk.injEq] at h
    obtain ⟨rfl, hrest⟩ := h
    rw [← hrest]
    apply List.Perm.cons a
    have h1 := siftDown_perm lt (((b :: t).getLast (by simp)) :: ((b :: t).dropLast)) 0
    have h2 : (((b :: t).getLast (by simp)) :: ((b :: t).dropLast)).Perm (b :: t) := by
      have h3 := List.perm_append_singleton ((b :: t).getLast (by simp)) ((b :: t).dropLast)
      have h4 : (b :: t).dropLast ++ [(b :: t).getLast (by simp)] = b :: t :=
        List.dropLast_append_getLast (by simp)
      rw [h4] at h3
      exact h3.symm
    exact h1.trans h2

theorem heapPop_fst (l : List α) {x : α} {rest : List α}
    (h : heapPop lt l = some (x, rest)) : l[0]? = some x := by
  match l with
  | [] => simp [heapPop] at h
  | [a] =>
    simp [heapPop] at h
    simp [h.1]
  | a :: b :: t =>
    simp only [heapPop, Option.some.injEq, Prod.mk.injEq] at h
    simp [h.1]

end HeapOps

/-! ### Heap correctness

Hypotheses on the strict comparison: asymmetry and the strict-weak-order
splitting law (both hold for the lexicographic `TaskItem` order). -/

section HeapProofs

variable {α : Type} (lt : α → α → Bool)

def LtAsym (lt : α → α → Bool) : Prop := ∀ a b, lt a b = true → lt b a = false

def LtSplit (lt : α → α → Bool) : Prop :=
  ∀ a b c, lt a c = true → lt a b = true ∨ lt b c = true

theorem lt_self_eq_false (hasym : LtAsym lt) (a : α) : lt a a = false := by
  cases h : lt a a with
  | false => rfl
  | true => exact absurd (h.symm.trans (hasym a a h)) (by simp)

theorem le_trans_of_split (hsplit : LtSplit lt) {a b c : α}
    (h1 : lt b a = false) (h2 : lt c b = false) : lt c a = false := by
  cases h : lt c a with
  | false => rfl
  | true =>
    rcases hsplit c b a h with h3 | h3
    · rw [h2] at h3; exact h3.symm
    · rw [h1] at h3; exact h3.symm

theorem le_along_desc (hasym : LtAsym lt) (hsplit : LtSplit lt) (l : List α) :
    ∀ {i j : Nat}, Desc i j →
      (∀ a b x y, Desc i a → (b = 2 * a + 1 ∨ b = 2 * a + 2) →
        l[a]? = some x → l[b]? = some y → lt y x = false) →
      ∀ {x y : α}, l[i]? = some x → l[j]? = some y → lt y x = false := by
  intro i j hdesc
  induction hdesc with
  | refl i =>
    intro _ x y hx hy
    rw [hx] at hy
    cases hy
    exact lt_self_eq_false lt hasym x
  | @left i j h ih =>
    intro hedge x y hx hy
    have hjlen : j < l.length := (List.getElem?_eq_some.mp hy).1
    have hblen : 2 * i + 1 < l.length := by have := h.le; omega
    have hz : l[2 * i + 1]? = some (l[2 * i + 1]) := List.getElem?_eq_getElem hblen
    have hedge2 : ∀ a b x y, Desc (2 * i + 1) a → (b = 2 * a + 1 ∨ b = 2 * a + 2) →
        l[a]? = some x → l[b]? = some y → lt y x = false := by
      intro a b x0 y0 hda hb hx0 hy0
      exact hedge a b x0 y0 (Desc.left hda) hb hx0 hy0
    have h1 : lt (l[2 * i + 1]) x = false :=
      hedge i (2 * i + 1) x (l[2 * i + 1]) (Desc.refl i) (Or.inl rfl) hx hz
    have h2 : lt y (l[2 * i + 1]) = false := ih hedge2 hz hy
    exact le_trans_of_split lt hsplit h1 h2
  | @right i j h ih =>
    intro hedge x y hx hy
    have hjlen : j < l.length := (List.getElem?_eq_some.mp hy).1
    have hblen : 2 * i + 2 < l.length := by have := h.le; omega
    have hz : l[2 * i + 2]? = some (l[2 * i + 2]) := List.getElem?_eq_getElem hblen
    have hedge2 : ∀ a b x y, Desc (2 * i + 2) a → (b = 2 * a + 1 ∨ b = 2 * a + 2) →
        l[a]? = some x → l[b]? = some y → lt y x = false := by
      intro a b x0 y0 hda hb hx0 hy0
      exact hedge a b x0 y0 (Desc.right hda) hb hx0 hy0
    have h1 : lt (l[2 * i + 2]) x = false :=
      hedge i (2 * i + 2) x (l[2 * i + 2]) (Desc.refl i) (Or.inr rfl) hx hz
    have h2 : lt y (l[2 * i + 2]) = false := ih hedge2 hz hy
    exact le_trans_of_split lt hsplit h1 h2

theorem isHeap_root_min (hasym : LtAsym lt) (hsplit : LtSplit lt) {l : List α}
    (hh : IsHeap lt l) {x y : α} {j : Nat} (hx : l[0]? = some x) (hy : l[j]? = some y) :
    lt y x = false := by
  apply le_along_desc lt hasym hsplit l (Desc.zero j) _ hx hy
  intro a b x0 y0 _ hb hx0 hy0
  exact hh a b x0 y0 hb hx0 hy0

theorem smallerChild_le (hasym : LtAsym lt) (l : List α) (i : Nat)
    (h1 : 2 * i + 1 < l.length) {c : Nat} {y z : α}
    (hcc : c = 2 * i + 1 ∨ c = 2 * i + 2)
    (hy : l[c]? = some y) (hz : l[smallerChild lt l i h1]? = some z) :
    lt y z = false := by
  unfold smallerChild at hz
  split at hz
  next h2 =>
    split at hz
    next hlr =>
      rcases hcc with rfl | rfl
      · rw [hy] at hz; cases hz; exact lt_self_eq_false lt hasym y
      · have hl : l[2 * i + 1]? = some (l.get ⟨2 * i + 1, h1⟩) := by
          simp [List.get_eq_getElem, List.getElem?_eq_getElem h1]
        have hr : l[2 * i + 2]? = some (l.get ⟨2 * i + 2, h2⟩) := by
          simp [List.get_eq_getElem, List.getElem?_eq_getElem h2]
        rw [hl] at hz; cases hz
        rw [hr] at hy; cases hy
        exact hasym _ _ hlr
    next hlr =>
      rcases hcc with rfl | rfl
      · have hl : l[2 * i + 1]? = some (l.get ⟨2 * i + 1, h1⟩) := by
          simp [List.get_eq_getElem, List.getElem?_eq_getElem h1]
        have hr : l[2 * i + 2]? = some (l.get ⟨2 * i + 2, h2⟩) := by
          simp [List.get_eq_getElem, List.getElem?_eq_getElem h2]
        rw [hr] at hz; cases hz
        rw [hl] at hy; cases hy
        simpa using hlr
      · rw [hy] at hz; cases hz; exact lt_self_eq_false lt hasym y
  next h2 =>
    rcases hcc with rfl | rfl
    · rw [hy] at hz; cases hz; exact lt_self_eq_false lt hasym y
    · have : (2 * i + 2) < l.length := (List.getElem?_eq_some.mp hy).1
      omega

theorem siftDown_spec (hasym : LtAsym lt) (hsplit : LtSplit lt) :
    ∀ (l : List α) (i : Nat),
      (∀ a b x y, Desc i a → a ≠ i → (b = 2 * a + 1 ∨ b = 2 * a + 2) →
        l[a]? = some x → l[b]? = some y → lt y x = false) →
      (∀ p, ¬ Desc i p → (siftDown lt l i)[p]? = l[p]?) ∧
      (∀ a b x y, Desc i a → (b = 2 * a + 1 ∨ b = 2 * a + 2) →
        (siftDown lt l i)[a]? = some x → (siftDown lt l i)[b]? = some y →
        lt y x = false) ∧
      (∃ j, Desc i j ∧ (siftDown lt l i)[i]? = l[j]?) := by
  intro l i
  induction l, i using siftDown.induct lt with
  | case1 l i h1 m hm hi hlt ih =>
    intro hpre
    have him : i < m := smallerChild_gt lt l i h1
    have hcm : m = 2 * i + 1 ∨ m = 2 * i + 2 := smallerChild_cases lt l i h1
    have hdim : Desc i m := Desc.child hcm
    have hrw : siftDown lt l i = siftDown lt (swapL l i m) m := by
      conv_lhs => rw [siftDown]
      simp only [dif_pos h1, if_pos hlt]
    have hl2i : (swapL l i m)[i]? = l[m]? := swapL_getElem?_fst l hi hm
    have hl2m : (swapL l i m)[m]? = l[i]? := swapL_getElem?_snd l hi hm
    have hpre2 : ∀ a b x y, Desc m a → a ≠ m → (b = 2 * a + 1 ∨ b = 2 * a + 2) →
        (swapL l i m)[a]? = some x → (swapL l i m)[b]? = some y → lt y x = false := by
      intro a b x y hda hnam hb hx hy
      have hma : 2 * m + 1 ≤ a := by
        rcases hda.lower_bound with h | h
        · exact absurd h hnam
        · exact h
      have hane : a ≠ i := by omega
      have hanem : a ≠ m := hnam
      have hbne : b ≠ i := by rcases hb with rfl | rfl <;> omega
      have hbnem : b ≠ m := by rcases hb with rfl | rfl <;> omega
      rw [swapL_getElem?_other l hane hanem] at hx
      rw [swapL_getElem?_other l hbne hbnem] at hy
      exact hpre a b x y (hdim.trans hda) hane hb hx hy
    obtain ⟨loc2, heap2, root2⟩ := ih hpre2
    have hnmi : ¬ Desc m i := by intro h; have := h.le; omega
    have hroot_i : (siftDown lt l i)[i]? = l[m]? := by
      rw [hrw, loc2 i hnmi, hl2i]
    refine ⟨?_, ?_, ?_⟩
    · intro p hnp
      have hpm : ¬ Desc m p := fun h => hnp (hdim.trans h)
      have hpi : p ≠ i := fun h => hnp (h ▸ Desc.refl i)
      have hpm2 : p ≠ m := fun h => hnp (h ▸ hdim)
      rw [hrw, loc2 p hpm, swapL_getElem?_other l hpi hpm2]
    · intro a b x y hda hb hx hy
      by_cases hma : Desc m a
      · rw [hrw] at hx hy
        exact heap2 a b x y hma hb hx hy
      · by_cases hai : a = i
        · subst hai
          have hxv : l[m]? = some x := by rw [← hroot_i]; exact hx
          by_cases hbm : b = m
          · subst hbm
            obtain ⟨j2, hdj2, hj2⟩ := root2
            rw [hrw, hj2] at hy
            by_cases hj2m : j2 = m
            · subst hj2m
              rw [hl2m] at hy
              have hx2 : x = l[m] := by
                have h0 : l[m]? = some (l[m]) := List.getElem?_eq_getElem hm
                rw [h0] at hxv
                exact (Option.some.inj hxv).symm
              have hy2 : y = l[a] := by
                have h0 : l[a]? = some (l[a]) := List.getElem?_eq_getElem hi
                rw [h0] at hy
                exact (Option.some.inj hy).symm
              subst hx2
              subst hy2
              have hlt2 := hasym _ _ hlt
              simpa [List.get_eq_getElem] using hlt2
            · have hj2i : j2 ≠ a := by
                have := hdj2.le
                omega
              rw [swapL_getElem?_other l hj2i hj2m] at hy
              refine le_along_desc lt hasym hsplit l hdj2 ?_ hxv hy
              intro a2 b2 x2 y2 hda2 hb2 hx2 hy2
              have ha2m : 2 * m + 1 ≤ a2 ∨ a2 = m := by
                rcases hda2.lower_bound with h | h
                · exact Or.inr h
                · exact Or.inl h
              have ha2i : a2 ≠ a := by rcases ha2m with h | h <;> omega
              exact hpre a2 b2 x2 y2 (hdim.trans hda2) ha2i hb2 hx2 hy2
          · have hnmb : ¬ Desc m b := by
              rcases hcm with hcm2 | hcm2 <;> rcases hb with rfl | rfl
              · exact absurd hcm2.symm hbm
              · rw [hcm2]; exact Desc.sibling_not_left
              · rw [hcm2]; exact Desc.sibling_not_right
              · exact absurd hcm2.symm hbm
            have hbi : b ≠ a := by rcases hb with rfl | rfl <;> omega
            rw [hrw, loc2 b hnmb, swapL_getElem?_other l hbi hbm] at hy
            exact smallerChild_le lt hasym l a h1 hb hy hxv
        · have hna : a ≠ m := fun h => hma (h ▸ Desc.refl m)
          have hia : 2 * i + 1 ≤ a := by
            rcases hda.lower_bound with h | h
            · exact absurd h hai
            · exact h
          have hbi : b ≠ i := by rcases hb with rfl | rfl <;> omega
          have hbm2 : b ≠ m := by
            intro h
            apply hai
            rcases hcm with hcm2 | hcm2 <;> rcases hb with rfl | rfl <;> omega
          have hnb : ¬ Desc m b := by
            intro hdb
            rcases hdb.to_parent with h | h
            · exact hbm2 h.symm
            · have hpar : (b - 1) / 2 = a := by rcases hb with rfl | rfl <;> omega
              rw [hpar] at h
              exact hma h
          rw [hrw, loc2 a hma, swapL_getElem?_other l hai hna] at hx
          rw [hrw, loc2 b hnb, swapL_getElem?_other l hbi hbm2] at hy
          exact hpre a b x y hda hai hb hx hy
    · exact ⟨m, hdim, hroot_i⟩
  | case2 l i h1 m hm hi hlt =>
    intro hpre
    have hcm : m = 2 * i + 1 ∨ m = 2 * i + 2 := smallerChild_cases lt l i h1
    have hrw : siftDown lt l i = l := by
      conv_lhs => rw [siftDown]
      simp only [dif_pos h1, if_neg hlt]
    rw [hrw]
    refine ⟨fun p _ => rfl, ?_, ⟨i, Desc.refl i, rfl⟩⟩
    intro a b x y hda hb hx hy
    by_cases hai : a = i
    · subst hai
      have hx2 : x = l[a] := by
        have h0 : l[a]? = some (l[a]) := List.getElem?_eq_getElem hi
        rw [h0] at hx
        exact (Option.some.inj hx).symm
      have hmle : lt (l[m]) (l[a]) = false := by
        have := Bool.not_eq_true _ |>.mp hlt
        simpa [List.get_eq_getElem] using this
      have hzv : l[m]? = some (l[m]) := List.getElem?_eq_getElem hm
      have hyle : lt y (l[m]) = false := smallerChild_le lt hasym l a h1 hb hy hzv
      rw [hx2]
      exact le_trans_of_split lt hsplit hmle hyle
    · exact hpre a b x y hda hai hb hx hy
  | case3 l i h1 =>
    intro hpre
    have hrw : siftDown lt l i = l := by
      rw [siftDown]
      simp only [dif_neg h1]
    rw [hrw]
    refine ⟨fun p _ => rfl, ?_, ⟨i, Desc.refl i, rfl⟩⟩
    intro a b x y hda hb hx hy
    have hblen : b < l.length := (List.getElem?_eq_some.mp hy).1
    have := hda.le
    rcases hb with rfl | rfl <;> omega

theorem siftUp_spec (hasym : LtAsym lt) (hsplit : LtSplit lt) :
    ∀ (l : List α) (i : Nat),
      (∀ a b x y, (b = 2 * a + 1 ∨ b = 2 * a + 2) → b ≠ i →
        l[a]? = some x → l[b]? = some y → lt y x = false) →
      (∀ b x y, (b = 2 * i + 1 ∨ b = 2 * i + 2) →
        l[(i - 1) / 2]? = some x → l[b]? = some y → lt y x = false) →
      IsHeap lt (siftUp lt l i) := by
  intro l i
  induction l, i using siftUp.induct lt with
  | case1 l i h hp hlt ih =>
    intro hpre1 hpre2
    have hi0 : i ≠ 0 := h.1
    have hilen : i < l.length := h.2
    have hpi : (i - 1) / 2 < i := by omega
    have hrw : siftUp lt l i = siftUp lt (swapL l i ((i - 1) / 2)) ((i - 1) / 2) := by
      conv_lhs => rw [siftUp]
      simp only [dif_pos h, if_pos hlt]
    rw [hrw]
    have hplen : (i - 1) / 2 < l.length := by omega
    have hswi : (swapL l i ((i - 1) / 2))[i]? = l[(i - 1) / 2]? :=
      swapL_getElem?_fst l hilen hplen
    have hswp : (swapL l i ((i - 1) / 2))[(i - 1) / 2]? = l[i]? :=
      swapL_getElem?_snd l hilen hplen
    have hlt2 : lt (l[(i - 1) / 2]) (l[i]) = false := by
      have := hasym _ _ hlt
      simpa [List.get_eq_getElem] using this
    apply ih
    · intro a2 b2 x y hb2 hb2p hx hy
      by_cases hb2i : b2 = i
      · have hap : a2 = (i - 1) / 2 := by omega
        rw [hap, hswp] at hx
        rw [hb2i, hswi] at hy
        have hx2 : x = l[i] := by
          rw [List.getElem?_eq_getElem hilen] at hx
          exact (Option.some.inj hx).symm
        have hy2 : y = l[(i - 1) / 2] := by
          rw [List.getElem?_eq_getElem hplen] at hy
          exact (Option.some.inj hy).symm
        rw [hx2, hy2]
        exact hlt2
      · by_cases ha2i : a2 = i
        · have hb2ne : b2 ≠ (i - 1) / 2 := by omega
          rw [ha2i, hswi] at hx
          rw [swapL_getElem?_other l hb2i hb2ne] at hy
          rw [ha2i] at hb2
          exact hpre2 b2 x y hb2 hx hy
        · by_cases hap : a2 = (i - 1) / 2
          · rw [hap, hswp] at hx
            rw [swapL_getElem?_other l hb2i hb2p] at hy
            have hx2 : x = l[i] := by
              rw [List.getElem?_eq_getElem hilen] at hx
              exact (Option.some.inj hx).symm
            rw [hap] at hb2
            have hyp : lt y (l[(i - 1) / 2]) = false :=
              hpre1 ((i - 1) / 2) b2 (l[(i - 1) / 2]) y hb2 hb2i
                (List.getElem?_eq_getElem hplen) hy
            rw [hx2]
            exact le_trans_of_split lt hsplit hlt2 hyp
          · rw [swapL_getElem?_other l ha2i hap] at hx
            rw [swapL_getElem?_other l hb2i hb2p] at hy
            exact hpre1 a2 b2 x y hb2 hb2i hx hy
    · intro b2 x y hb2 hx hy
      by_cases hp0 : (i - 1) / 2 = 0
      · have hppz : ((i - 1) / 2 - 1) / 2 = (i - 1) / 2 := by omega
        rw [hppz, hswp] at hx
        have hx2 : x = l[i] := by
          rw [List.getElem?_eq_getElem hilen] at hx
          exact (Option.some.inj hx).symm
        by_cases hb2i : b2 = i
        · rw [hb2i, hswi] at hy
          have hy2 : y = l[(i - 1) / 2] := by
            rw [List.getElem?_eq_getElem hplen] at hy
            exact (Option.some.inj hy).symm
          rw [hx2, hy2]
          exact hlt2
        · have hb2p : b2 ≠ (i - 1) / 2 := by omega
          rw [swapL_getElem?_other l hb2i hb2p] at hy
          have hyp : lt y (l[(i - 1) / 2]) = false :=
            hpre1 ((i - 1) / 2) b2 (l[(i - 1) / 2]) y hb2 hb2i
              (List.getElem?_eq_getElem hplen) hy
          rw [hx2]
          exact le_trans_of_split lt hsplit hlt2 hyp
      · have hppne_i : ((i - 1) / 2 - 1) / 2 ≠ i := by omega
        have hppne_p : ((i - 1) / 2 - 1) / 2 ≠ (i - 1) / 2 := by omega
        rw [swapL_getElem?_other l hppne_i hppne_p] at hx
        have hpar : lt (l[(i - 1) / 2]) x = false := by
          refine hpre1 (((i - 1) / 2 - 1) / 2) ((i - 1) / 2) x (l[(i - 1) / 2]) ?_
            (by omega) hx (List.getElem?_eq_getElem hplen)
          omega
        by_cases hb2i : b2 = i
        · rw [hb2i, hswi] at hy
          have hy2 : y = l[(i - 1) / 2] := by
            rw [List.getElem?_eq_getElem hplen] at hy
            exact (Option.some.inj hy).symm
          rw [hy2]
          exact hpar
        · have hb2p : b2 ≠ (i - 1) / 2 := by omega
          rw [swapL_getElem?_other l hb2i hb2p] at hy
          have hyp : lt y (l[(i - 1) / 2]) = false :=
            hpre1 ((i - 1) / 2) b2 (l[(i - 1) / 2]) y hb2 hb2i
              (List.getElem?_eq_getElem hplen) hy
          exact le_trans_of_split lt hsplit hpar hyp
  | case2 l i h hp hlt =>
    intro hpre1 hpre2
    have hrw : siftUp lt l i = l := by
      conv_lhs => rw [siftUp]
      simp only [dif_pos h, if_neg hlt]
    rw [hrw]
    intro a b x y hb hx hy
    by_cases hbi : b = i
    · subst hbi
      have hap : a = (b - 1) / 2 := by omega
      subst hap
      have hx2 : x = l[(b - 1) / 2] := by
        rw [List.getElem?_eq_getElem (by omega : (b - 1) / 2 < l.length)] at hx
        exact (Option.some.inj hx).symm
      have hy2 : y = l[b] := by
        rw [List.getElem?_eq_getElem h.2] at hy
        exact (Option.some.inj hy).symm
      rw [hx2, hy2]
      have := Bool.not_eq_true _ |>.mp hlt
      simpa [List.get_eq_getElem] using this
    · exact hpre1 a b x y hb hbi hx hy
  | case3 l i h =>
    intro hpre1 hpre2
    have hrw : siftUp lt l i = l := by
      rw [siftUp]
      simp only [dif_neg h]
    rw [hrw]
    intro a b x y hb hx hy
    by_cases hbi : b = i
    · subst hbi
      have hblen : b < l.length := (List.getElem?_eq_some.mp hy).1
      rcases hb with rfl | rfl <;> [skip; skip] <;>
        exact absurd ⟨by omega, hblen⟩ h
    · exact hpre1 a b x y hb hbi hx hy

theorem heapPush_isHeap (hasym : LtAsym lt) (hsplit : LtSplit lt) (l : List α) (x : α)
    (hh : IsHeap lt l) : IsHeap lt (heapPush lt l x) := by
  unfold heapPush
  apply siftUp_spec lt hasym hsplit (l ++ [x]) l.length
  · intro a b x0 y0 hb hbn hx0 hy0
    have hblen : b < (l ++ [x]).length := (List.getElem?_eq_some.mp hy0).1
    have hblen2 : b < l.length := by
      simp only [List.length_append, List.length_cons, List.length_nil] at hblen
      omega
    have halen : a < l.length := by rcases hb with rfl | rfl <;> omega
    rw [List.getElem?_append, if_pos halen] at hx0
    rw [List.getElem?_append, if_pos hblen2] at hy0
    exact hh a b x0 y0 hb hx0 hy0
  · intro b x0 y0 hb hx0 hy0
    have hblen : b < (l ++ [x]).length := (List.getElem?_eq_some.mp hy0).1
    simp only [List.length_append, List.length_cons, List.length_nil] at hblen
    omega

theorem isHeap_nil : IsHeap lt ([] : List α) := by
  intro a b x y hb hx hy
  simp at hx

theorem heapPop_isHeap (hasym : LtAsym lt) (hsplit : LtSplit lt) (l : List α)
    (hh : IsHeap lt l) {x : α} {rest : List α}
    (h : heapPop lt l = some (x, rest)) : IsHeap lt rest := by
  match l with
  | [] => simp [heapPop] at h
  | [a] =>
    simp only [heapPop, Option.some.injEq, Prod.mk.injEq] at h
    obtain ⟨rfl, rfl⟩ := h
    exact isHeap_nil lt
  | a :: b0 :: t =>
    simp only [heapPop, Option.some.injEq, Prod.mk.injEq] at h
    obtain ⟨rfl, hrest⟩ := h
    rw [← hrest]
    have hpre : ∀ a2 b2 x2 y2, Desc 0 a2 → a2 ≠ 0 →
        (b2 = 2 * a2 + 1 ∨ b2 = 2 * a2 + 2) →
        (((b0 :: t).getLast (by simp)) :: ((b0 :: t).dropLast))[a2]? = some x2 →
        (((b0 :: t).getLast (by simp)) :: ((b0 :: t).dropLast))[b2]? = some y2 →
        lt y2 x2 = false := by
      intro a2 b2 x2 y2 _ ha2 hb2 hx2 hy2
      have hb2pos : b2 ≠ 0 := by rcases hb2 with rfl | rfl <;> omega
      obtain ⟨a3, rfl⟩ : ∃ a3, a2 = a3 + 1 := ⟨a2 - 1, by omega⟩
      obtain ⟨b3, rfl⟩ : ∃ b3, b2 = b3 + 1 := ⟨b2 - 1, by omega⟩
      simp only [List.getElem?_cons_succ] at hx2 hy2
      rw [List.getElem?_dropLast] at hx2 hy2
      split at hx2
      next ha3 =>
        split at hy2
        next hb3 =>
          have hxl : (a :: b0 :: t)[a3 + 1]? = some x2 := by
            simpa using hx2
          have hyl : (a :: b0 :: t)[b3 + 1]? = some y2 := by
            simpa using hy2
          exact hh (a3 + 1) (b3 + 1) x2 y2 (by omega) hxl hyl
        next => exact absurd hy2 (by simp)
      next => exact absurd hx2 (by simp)
    have hs := siftDown_spec lt hasym hsplit
      (((b0 :: t).getLast (by simp)) :: ((b0 :: t).dropLast)) 0 hpre
    intro a2 b2 x2 y2 hb2 hx2 hy2
    exact hs.2.1 a2 b2 x2 y2 (Desc.zero a2) hb2 hx2 hy2

theorem heapifyAux_isHeap (hasym : LtAsym lt) (hsplit : LtSplit lt) :
    ∀ (k : Nat) (l : List α),
      (∀ a b x y, k ≤ a → (b = 2 * a + 1 ∨ b = 2 * a + 2) →
        l[a]? = some x → l[b]? = some y → lt y x = false) →
      IsHeap lt (heapifyAux lt k l) := by
  intro k
  induction k with
  | zero =>
    intro l hinv
    intro a b x y hb hx hy
    exact hinv a b x y (Nat.zero_le a) hb hx hy
  | succ k ih =>
    intro l hinv
    unfold heapifyAux
    apply ih
    have hpre : ∀ a b x y, Desc k a → a ≠ k → (b = 2 * a + 1 ∨ b = 2 * a + 2) →
        l[a]? = some x → l[b]? = some y → lt y x = false := by
      intro a b x y hda hak hb hx hy
      have hka : 2 * k + 1 ≤ a := by
        rcases hda.lower_bound with h | h
        · exact absurd h hak
        · exact h
      exact hinv a b x y (by omega) hb hx hy
    obtain ⟨loc, heap, _⟩ := siftDown_spec lt hasym hsplit l k hpre
    intro a b x y hka hb hx hy
    by_cases hda : Desc k a
    · exact heap a b x y hda hb hx hy
    · have hak : a ≠ k := fun h2 => hda (h2 ▸ Desc.refl k)
      have hbk : b ≠ k := by rcases hb with rfl | rfl <;> omega
      have hdb : ¬ Desc k b := Desc.not_of_child hda hb hbk
      rw [loc a hda] at hx
      rw [loc b hdb] at hy
      exact hinv a b x y (by omega) hb hx hy

theorem heapify_isHeap (hasym : LtAsym lt) (hsplit : LtSplit lt) (l : List α) :
    IsHeap lt (heapify lt l) := by
  apply heapifyAux_isHeap lt hasym hsplit
  intro a b x y hka hb hx hy
  have hblen : b < l.length := (List.getElem?_eq_some.mp hy).1
  omega

end HeapProofs

/-! ### TaskQueue (server/core/task_queue.py)

`Priority` is the `IntEnum` (CRITICAL=0 < HIGH=1 < NORMAL=2 < LOW=3);
`TaskItem` is the ordered dataclass, whose comparison fields are
`(priority, timestamp)`; `task_id` and `created_at` are carried along
(`func`, `args`, `kwargs` are opaque payload with `compare=False` and play
no role in any queue decision, so they are not modelled).  Timestamps are
logical `time.time()` instants. -/

inductive Priority where
  | CRITICAL
  | HIGH
  | NORMAL
  | LOW
deriving DecidableEq

def Priority.toNat : Priority → Nat
  | .CRITICAL => 0
  | .HIGH => 1
  | .NORMAL => 2
  | .LOW => 3

structure TaskItem where
  priority : Nat
  timestamp : Nat
  task_id : String
  created_at : Nat
deriving DecidableEq

/-- Strict dataclass order on `TaskItem`: lexicographic `(priority, timestamp)`. -/
def itemLt (a b : TaskItem) : Bool :=
  decide (a.priority < b.priority) ||
    (decide (a.priority = b.priority) && decide (a.timestamp < b.timestamp))

theorem itemLt_iff (a b : TaskItem) : itemLt a b = true ↔
    (a.priority < b.priority ∨ (a.priority = b.priority ∧ a.timestamp < b.timestamp)) := by
  simp [itemLt]

theorem itemLt_asym : LtAsym itemLt := by
  intro a b h
  cases hlt : itemLt b a with
  | false => rfl
  | true =>
    exfalso
    have h1 := (itemLt_iff a b).mp h
    have h2 := (itemLt_iff b a).mp hlt
    omega

theorem itemLt_split : LtSplit itemLt := by
  intro a b c h
  have h1 := (itemLt_iff a c).mp h
  by_cases h2 : a.priority < b.priority ∨ (a.priority = b.priority ∧ a.timestamp < b.timestamp)
  · exact Or.inl ((itemLt_iff a b).mpr h2)
  · right
    apply (itemLt_iff b c).mpr
    omega

/-- Item built by `TaskQueue.submit`: `timestamp` and `created_at` are both
sampled at submission time. -/
def mkItem (prio : Priority) (task_id : String) (now : Nat) : TaskItem :=
  { priority := prio.toNat, timestamp := now, task_id := task_id, created_at := now }

/-- Scan loop of `TaskQueue._drop_lowest_priority`: tracks
`(lowest_idx, lowest_prio, lowest_ts)`, replacing the victim when a strictly
larger ordinal appears, or on an equal ordinal with a strictly newer
timestamp.  `none` plays the role of the `lowest_idx = -1` initial state. -/
def victimScanAux : List TaskItem → Nat → Option (Nat × Nat × Nat) → Option (Nat × Nat × Nat)
  | [], _, acc => acc
  | it :: rest, i, acc =>
    victimScanAux rest (i + 1)
      (match acc with
       | none => some (i, it.priority, it.timestamp)
       | some (li, lp, lts) =>
         if lp < it.priority then some (i, it.priority, it.timestamp)
         else if it.priority = lp ∧ lts < it.timestamp then some (i, lp, it.timestamp)
         else some (li, lp, lts))

def victimScan (q : List TaskItem) : Option (Nat × Nat × Nat) := victimScanAux q 0 none

/-- Model of `TaskQueue._drop_lowest_priority`: `none` answers `False`
(nothing dropped), `some q2` is the queue after `del` plus `heapq.heapify`. -/
def dropLowestPriority (q : List TaskItem) : Option (List TaskItem) :=
  match victimScan q with
  | none => none
  | some (li, lp, _) =>
    if 1 < lp then some (heapify itemLt (q.eraseIdx li)) else none

/-- Model of `TaskQueue.submit`. -/
def submit (maxSize : Nat) (q : List TaskItem) (prio : Priority) (task_id : String)
    (now : Nat) : Bool × List TaskItem :=
  if maxSize ≤ q.length then
    if 1 < prio.toNat then (false, q)
    else
      match dropLowestPriority q with
      | none => (false, q)
      | some q2 => (true, heapPush itemLt q2 (mkItem prio task_id now))
  else (true, heapPush itemLt q (mkItem prio task_id now))

/-- Per-item action of the starvation sweep: an item below HIGH whose age
exceeds the threshold is promoted to HIGH, keeping its sort timestamp. -/
def boostItem (thr now : Nat) (it : TaskItem) : TaskItem :=
  if 1 < it.priority ∧ thr < now - it.created_at then
    { it with priority := 1 }
  else it

/-- Model of `TaskQueue._handle_starvation`: boost in place, and re-heapify
exactly when something changed. -/
def handleStarvation (thr : Nat) (q : List TaskItem) (now : Nat) : List TaskItem :=
  if q.map (boostItem thr now) = q then q
  else heapify itemLt (q.map (boostItem thr now))

/-- Model of `TaskQueue.get_next_task`: on an empty queue the wait expires
and `None` is returned; otherwise the starvation sweep runs and the heap
root is popped. -/
def getNextTask (thr : Nat) (q : List TaskItem) (now : Nat) :
    Option (TaskItem × List TaskItem) :=
  if q = [] then none
  else heapPop itemLt (handleStarvation thr q now)

/-- Queue states reachable by any interleaving of `submit` and
`get_next_task` from a freshly constructed queue. -/
inductive Reach (maxSize thr : Nat) : List TaskItem → Prop where
  | empty : Reach maxSize thr []
  | psubmit {q : List TaskItem} (prio : Priority) (task_id : String) (now : Nat) :
      Reach maxSize thr q → Reach maxSize thr (submit maxSize q prio task_id now).2
  | pget {q q2 : List TaskItem} {it : TaskItem} (now : Nat) :
      Reach maxSize thr q → getNextTask thr q now = some (it, q2) →
      Reach maxSize thr q2

theorem handleStarvation_perm (thr now : Nat) (q : List TaskItem) :
    (handleStarvation thr q now).Perm (q.map (boostItem thr now)) := by
  unfold handleStarvation
  split
  next h => rw [h]
  next => exact heapify_perm itemLt _

theorem handleStarvation_isHeap (thr now : Nat) (q : List TaskItem)
    (hh : IsHeap itemLt q) : IsHeap itemLt (handleStarvation thr q now) := by
  unfold handleStarvation
  split
  next => exact hh
  next => exact heapify_isHeap itemLt itemLt_asym itemLt_split _

theorem submit_isHeap (maxSize : Nat) (q : List TaskItem) (prio : Priority)
    (task_id : String) (now : Nat) (hh : IsHeap itemLt q) :
    IsHeap itemLt (submit maxSize q prio task_id now).2 := by
  unfold submit
  split
  · split
    · exact hh
    · cases hdrop : dropLowestPriority q with
      | none => exact hh
      | some q2 =>
        simp only []
        apply heapPush_isHeap itemLt itemLt_asym itemLt_split
        unfold dropLowestPriority at hdrop
        cases hscan : victimScan q with
        | none => rw [hscan] at hdrop; simp at hdrop
        | some t =>
          rw [hscan] at hdrop
          obtain ⟨li, lp, lts⟩ := t
          simp only [] at hdrop
          split at hdrop
          · cases hdrop
            exact heapify_isHeap itemLt itemLt_asym itemLt_split _
          · simp at hdrop
  · exact heapPush_isHeap itemLt itemLt_asym itemLt_split q _ hh

theorem getNextTask_isHeap (thr : Nat) (q : List TaskItem) (now : Nat)
    {it : TaskItem} {q2 : List TaskItem} (hh : IsHeap itemLt q)
    (h : getNextTask thr q now = some (it, q2)) : IsHeap itemLt q2 := by
  unfold getNextTask at h
  split at h
  · cases h
  · exact heapPop_isHeap itemLt itemLt_asym itemLt_split _
      (handleStarvation_isHeap thr now q hh) h

theorem reach_isHeap {maxSize thr : Nat} {q : List TaskItem}
    (h : Reach maxSize thr q) : IsHeap itemLt q := by
  induction h with
  | empty => exact isHeap_nil itemLt
  | psubmit prio task_id now _ ih => exact submit_isHeap _ _ prio task_id now ih
  | pget now _ hget ih => exact getNextTask_isHeap _ _ now ih hget

theorem victimScanAux_some :
    ∀ (es : List TaskItem) (i0 li lp lts : Nat),
      ∃ li2 lp2 lts2,
        victimScanAux es i0 (some (li, lp, lts)) = some (li2, lp2, lts2) ∧
        ((li2 = li ∧ lp2 = lp ∧ lts2 = lts) ∨
          (∃ k v, es[k]? = some v ∧ li2 = i0 + k ∧ v.priority = lp2 ∧ v.timestamp = lts2)) ∧
        lp ≤ lp2 ∧ (lp = lp2 → lts ≤ lts2) ∧
        (∀ u ∈ es, u.priority ≤ lp2) ∧
        (∀ u ∈ es, u.priority = lp2 → u.timestamp ≤ lts2) := by
  intro es
  induction es with
  | nil =>
    intro i0 li lp lts
    exact ⟨li, lp, lts, rfl, Or.inl ⟨rfl, rfl, rfl⟩, Nat.le_refl _, fun _ => Nat.le_refl _,
      by simp, by simp⟩
  | cons it rest ih =>
    intro i0 li lp lts
    have hstep : victimScanAux (it :: rest) i0 (some (li, lp, lts)) =
        victimScanAux rest (i0 + 1)
          (if lp < it.priority then some (i0, it.priority, it.timestamp)
           else if it.priority = lp ∧ lts < it.timestamp then some (i0, lp, it.timestamp)
           else some (li, lp, lts)) := rfl
    by_cases hgt : lp < it.priority
    · obtain ⟨li2, lp2, lts2, heq, hprov, hle, hts, hbp, hbt⟩ :=
        ih (i0 + 1) i0 it.priority it.timestamp
      rw [hstep, if_pos hgt]
      refine ⟨li2, lp2, lts2, heq, ?_, by omega, by omega, ?_, ?_⟩
      · rcases hprov with ⟨h1, h2, h3⟩ | ⟨k, v, hk, hli, hv1, hv2⟩
        · exact Or.inr ⟨0, it, by simp, by omega, by omega, by omega⟩
        · exact Or.inr ⟨k + 1, v, by simpa using hk, by omega, hv1, hv2⟩
      · intro u hu
        rcases List.mem_cons.mp hu with rfl | hu2
        · omega
        · exact hbp u hu2
      · intro u hu
        rcases List.mem_cons.mp hu with rfl | hu2
        · exact fun h => hts h
        · exact hbt u hu2
    · by_cases heq2 : it.priority = lp ∧ lts < it.timestamp
      · obtain ⟨li2, lp2, lts2, heq, hprov, hle, hts, hbp, hbt⟩ :=
          ih (i0 + 1) i0 lp it.timestamp
        rw [hstep, if_neg hgt, if_pos heq2]
        refine ⟨li2, lp2, lts2, heq, ?_, hle, by omega, ?_, ?_⟩
        · rcases hprov with ⟨h1, h2, h3⟩ | ⟨k, v, hk, hli, hv1, hv2⟩
          · exact Or.inr ⟨0, it, by simp, by omega, by omega, by omega⟩
          · exact Or.inr ⟨k + 1, v, by simpa using hk, by omega, hv1, hv2⟩
        · intro u hu
          rcases List.mem_cons.mp hu with rfl | hu2
          · omega
          · exact hbp u hu2
        · intro u hu
          rcases List.mem_cons.mp hu with rfl | hu2
          · intro h
            have := hts (by omega)
            omega
          · exact hbt u hu2
      · obtain ⟨li2, lp2, lts2, heq, hprov, hle, hts, hbp, hbt⟩ :=
          ih (i0 + 1) li lp lts
        rw [hstep, if_neg hgt, if_neg heq2]
        refine ⟨li2, lp2, lts2, heq, ?_, hle, hts, ?_, ?_⟩
        · rcases hprov with ⟨h1, h2, h3⟩ | ⟨k, v, hk, hli, hv1, hv2⟩
          · exact Or.inl ⟨h1, h2, h3⟩
          · exact Or.inr ⟨k + 1, v, by simpa using hk, by omega, hv1, hv2⟩
        · intro u hu
          rcases List.mem_cons.mp hu with rfl | hu2
          · omega
          · exact hbp u hu2
        · intro u hu
          rcases List.mem_cons.mp hu with rfl | hu2
          · intro h
            rcases Nat.lt_or_ge u.priority lp with hc | hc
            · omega
            · have hup : u.priority = lp := by omega
              have := hts (by omega)
              omega
          · exact hbt u hu2

theorem victimScan_spec (q : List TaskItem) (hq : q ≠ []) :
    ∃ li lp lts, victimScan q = some (li, lp, lts) ∧ li < q.length ∧
      (∃ v, q[li]? = some v ∧ v.priority = lp ∧ v.timestamp = lts) ∧
      (∀ u ∈ q, u.priority ≤ lp) ∧
      (∀ u ∈ q, u.priority = lp → u.timestamp ≤ lts) := by
  match q with
  | [] => exact absurd rfl hq
  | it :: rest =>
    have hstep : victimScan (it :: rest) =
        victimScanAux rest 1 (some (0, it.priority, it.timestamp)) := rfl
    obtain ⟨li2, lp2, lts2, heq, hprov, hle, hts, hbp, hbt⟩ :=
      victimScanAux_some rest 1 0 it.priority it.timestamp
    refine ⟨li2, lp2, lts2, hstep.trans heq, ?_, ?_, ?_, ?_⟩
    · rcases hprov with ⟨h1, h2, h3⟩ | ⟨k, v, hk, hli, hv1, hv2⟩
      · simp [h1]
      · have := (List.getElem?_eq_some.mp hk).1
        simp only [List.length_cons]
        omega
    · rcases hprov with ⟨h1, h2, h3⟩ | ⟨k, v, hk, hli, hv1, hv2⟩
      · exact ⟨it, by simp [h1], by omega, by omega⟩
      · exact ⟨v, by rw [hli, Nat.add_comm]; simpa using hk, hv1, hv2⟩
    · intro u hu
      rcases List.mem_cons.mp hu with rfl | hu2
      · exact hle
      · exact hbp u hu2
    · intro u hu
      rcases List.mem_cons.mp hu with rfl | hu2
      · exact fun h => hts h
      · exact hbt u hu2

theorem dropLowestPriority_none_of_all_high (q : List TaskItem)
    (hall : ∀ v ∈ q, v.priority ≤ 1) : dropLowestPriority q = none := by
  by_cases hq : q = []
  · subst hq; rfl
  · obtain ⟨li, lp, lts, hscan, hlen, ⟨v, hvq, hvp, hvt⟩, hbp, hbt⟩ := victimScan_spec q hq
    have hv_mem : v ∈ q := List.mem_iff_getElem?.mpr ⟨li, hvq⟩
    have : lp ≤ 1 := hvp ▸ hall v hv_mem
    unfold dropLowestPriority
    rw [hscan]
    simp only []
    rw [if_neg (by omega)]

theorem dropLowestPriority_some_spec (q : List TaskItem) {v0 : TaskItem}
    (hv0 : v0 ∈ q) (hv0p : 1 < v0.priority) :
    ∃ li v, q[li]? = some v ∧ 1 < v.priority ∧
      (∀ u ∈ q, u.priority ≤ v.priority) ∧
      (∀ u ∈ q, u.priority = v.priority → u.timestamp ≤ v.timestamp) ∧
      dropLowestPriority q = some (heapify itemLt (q.eraseIdx li)) := by
  have hq : q ≠ [] := by intro h; subst h; simp at hv0
  obtain ⟨li, lp, lts, hscan, hlen, ⟨v, hvq, hvp, hvt⟩, hbp, hbt⟩ := victimScan_spec q hq
  have hlp : 1 < lp := lt_of_lt_of_le hv0p (hbp v0 hv0)
  refine ⟨li, v, hvq, by omega, ?_, ?_, ?_⟩
  · intro u hu; have := hbp u hu; omega
  · intro u hu hup
    have := hbt u hu (by omega)
    omega
  · unfold dropLowestPriority
    rw [hscan]
    simp only []
    rw [if_pos hlp]

theorem dropLowestPriority_length (q : List TaskItem) {q2 : List TaskItem}
    (h : dropLowestPriority q = some q2) : q2.length = q.length - 1 ∧ q ≠ [] := by
  by_cases hq : q = []
  · subst hq
    simp [dropLowestPriority, victimScan, victimScanAux] at h
  · obtain ⟨li, lp, lts, hscan, hlen, _, _, _⟩ := victimScan_spec q hq
    unfold dropLowestPriority at h
    rw [hscan] at h
    simp only [] at h
    split at h
    · cases h
      refine ⟨?_, hq⟩
      have h1 := (heapify_perm itemLt (q.eraseIdx li)).length_eq
      rw [h1]
      rw [List.length_eraseIdx]
      simp [hlen]
    · cases h

theorem submit_below (maxSize : Nat) (q : List TaskItem) (prio : Priority)
    (tid : String) (now : Nat) (h : q.length < maxSize) :
    submit maxSize q prio tid now = (true, heapPush itemLt q (mkItem prio tid now)) := by
  unfold submit
  rw [if_neg (by omega)]

theorem submit_full_low (maxSize : Nat) (q : List TaskItem) (prio : Priority)
    (tid : String) (now : Nat) (h : maxSize ≤ q.length) (hp : 1 < prio.toNat) :
    submit maxSize q prio tid now = (false, q) := by
  unfold submit
  rw [if_pos h, if_pos hp]

theorem submit_full_high_none (maxSize : Nat) (q : List TaskItem) (prio : Priority)
    (tid : String) (now : Nat) (h : maxSize ≤ q.length) (hp : ¬ 1 < prio.toNat)
    (hd : dropLowestPriority q = none) :
    submit maxSize q prio tid now = (false, q) := by
  unfold submit
  rw [if_pos h, if_neg hp, hd]

theorem submit_full_high_some (maxSize : Nat) (q : List TaskItem) (prio : Priority)
    (tid : String) (now : Nat) {q2 : List TaskItem} (h : maxSize ≤ q.length)
    (hp : ¬ 1 < prio.toNat) (hd : dropLowestPriority q = some q2) :
    submit maxSize q prio tid now = (true, heapPush itemLt q2 (mkItem prio tid now)) := by
  unfold submit
  rw [if_pos h, if_neg hp, hd]

theorem getNextTask_len {thr : Nat} {q : List TaskItem} {now : Nat} {it : TaskItem}
    {q2 : List TaskItem} (h : getNextTask thr q now = some (it, q2)) :
    q2.length + 1 = q.length := by
  unfold getNextTask at h
  split at h
  · cases h
  · have hperm := heapPop_perm itemLt _ h
    have h2 := hperm.length_eq
    have h3 := (handleStarvation_perm thr now q).length_eq
    simp only [List.length_cons, List.length_map] at h2 h3
    omega

theorem reach_length {maxSize thr : Nat} {q : List TaskItem}
    (h : Reach maxSize thr q) : q.length ≤ maxSize := by
  induction h with
  | empty => simp
  | @psubmit q0 prio tid now hr ih =>
    by_cases hfull : maxSize ≤ q0.length
    · by_cases hp : 1 < prio.toNat
      · rw [submit_full_low maxSize q0 prio tid now hfull hp]
        exact ih
      · cases hd : dropLowestPriority q0 with
        | none =>
          rw [submit_full_high_none maxSize q0 prio tid now hfull hp hd]
          exact ih
        | some q2 =>
          rw [submit_full_high_some maxSize q0 prio tid now hfull hp hd]
          simp only []
          rw [heapPush_length]
          obtain ⟨hlen, hne⟩ := dropLowestPriority_length q0 hd
          have : q0.length ≠ 0 := fun h0 => hne (List.length_eq_zero.mp h0)
          omega
    · rw [submit_below maxSize q0 prio tid now (by omega)]
      simp only []
      rw [heapPush_length]
      omega
  | @pget q0 q2 it now hr hget ih =>
    have := getNextTask_len hget
    omega

/-- C1: TaskQueue.submit backpressure.  Below capacity every priority is
accepted and the item joins the queue.  At capacity, NORMAL/LOW submissions
are rejected with the queue unchanged; CRITICAL/HIGH submissions evict one
queued item of maximal priority ordinal (lowest urgency), among those the
one with the newest timestamp, then enqueue and return true; if every
queued item is CRITICAL or HIGH (ordinal at most 1) the submission is
rejected with the queue unchanged. -/
theorem taskqueue_submit_backpressure (maxSize : Nat) (q : List TaskItem)
    (prio : Priority) (tid : String) (now : Nat) :
    (q.length < maxSize →
      (submit maxSize q prio tid now).1 = true ∧
      (submit maxSize q prio tid now).2.Perm (mkItem prio tid now :: q)) ∧
    (q.length = maxSize →
      ((prio = Priority.NORMAL ∨ prio = Priority.LOW) →
        submit maxSize q prio tid now = (false, q)) ∧
      ((prio = Priority.CRITICAL ∨ prio = Priority.HIGH) →
        ((∀ v ∈ q, v.priority ≤ 1) → submit maxSize q prio tid now = (false, q)) ∧
        (∀ v0 ∈ q, 1 < v0.priority →
          ∃ li victim, q[li]? = some victim ∧ 1 < victim.priority ∧
            (∀ u ∈ q, u.priority ≤ victim.priority) ∧
            (∀ u ∈ q, u.priority = victim.priority →
              u.timestamp ≤ victim.timestamp) ∧
            (submit maxSize q prio tid now).1 = true ∧
            (submit maxSize q prio tid now).2.Perm
              (mkItem prio tid now :: q.eraseIdx li)))) := by
  constructor
  · intro hlt
    rw [submit_below maxSize q prio tid now hlt]
    exact ⟨rfl, heapPush_perm itemLt q _⟩
  · intro hcap
    have hfull : maxSize ≤ q.length := le_of_eq hcap.symm
    constructor
    · intro hpr
      have hp : 1 < prio.toNat := by rcases hpr with rfl | rfl <;> decide
      exact submit_full_low maxSize q prio tid now hfull hp
    · intro hpr
      have hp : ¬ 1 < prio.toNat := by rcases hpr with rfl | rfl <;> decide
      constructor
      · intro hall
        exact submit_full_high_none maxSize q prio tid now hfull hp
          (dropLowestPriority_none_of_all_high q hall)
      · intro v0 hv0 hv0p
        obtain ⟨li, v, hvq, hvp, hbp, hbt, hdrop⟩ :=
          dropLowestPriority_some_spec q hv0 hv0p
        refine ⟨li, v, hvq, hvp, hbp, hbt, ?_, ?_⟩
        · rw [submit_full_high_some maxSize q prio tid now hfull hp hdrop]
        · rw [submit_full_high_some maxSize q prio tid now hfull hp hdrop]
          exact (heapPush_perm itemLt _ _).trans
            (List.Perm.cons _ (heapify_perm itemLt _))

/-- Witness for C1 at the spec scenario: with capacity 2 and two queued
NORMAL items, a LOW submission is rejected leaving the queue unchanged,
while a CRITICAL submission is accepted. -/
theorem taskqueue_submit_backpressure_witness :
    submit 2 [mkItem Priority.NORMAL "a" 1, mkItem Priority.NORMAL "b" 2]
        Priority.LOW "c" 3 =
      (false, [mkItem Priority.NORMAL "a" 1, mkItem Priority.NORMAL "b" 2]) ∧
    (submit 2 [mkItem Priority.NORMAL "a" 1, mkItem Priority.NORMAL "b" 2]
        Priority.CRITICAL "d" 4).1 = true := by
  constructor
  · exact ((taskqueue_submit_backpressure 2
      [mkItem Priority.NORMAL "a" 1, mkItem Priority.NORMAL "b" 2]
      Priority.LOW "c" 3).2 (by decide)).1 (Or.inr rfl)
  · obtain ⟨li, victim, _, _, _, _, hacc, _⟩ :=
      (((taskqueue_submit_backpressure 2
        [mkItem Priority.NORMAL "a" 1, mkItem Priority.NORMAL "b" 2]
        Priority.CRITICAL "d" 4).2 (by decide)).2 (Or.inl rfl)).2
        (mkItem Priority.NORMAL "a" 1) (by simp) (by decide)
    exact hacc

/-- C5: whenever get_next_task returns an item, that item belongs to the
queue as it stands at the moment of the pop (after the starvation sweep)
and its (priority, timestamp) pair is lexicographically least among all
queued items. -/
theorem taskqueue_pop_min (maxSize thr : Nat) (q : List TaskItem) (now : Nat)
    (it : TaskItem) (q2 : List TaskItem) (hreach : Reach maxSize thr q)
    (hget : getNextTask thr q now = some (it, q2)) :
    it ∈ handleStarvation thr q now ∧
    ∀ u ∈ handleStarvation thr q now,
      it.priority < u.priority ∨
        (it.priority = u.priority ∧ it.timestamp ≤ u.timestamp) := by
  have hh := handleStarvation_isHeap thr now q (reach_isHeap hreach)
  unfold getNextTask at hget
  split at hget
  · cases hget
  · have hroot := heapPop_fst itemLt _ hget
    refine ⟨List.mem_iff_getElem?.mpr ⟨0, hroot⟩, ?_⟩
    intro u hu
    obtain ⟨j, hj⟩ := List.mem_iff_getElem?.mp hu
    have hmin := isHeap_root_min itemLt itemLt_asym itemLt_split hh hroot hj
    by_contra hc
    have hcc : u.priority < it.priority ∨
        (u.priority = it.priority ∧ u.timestamp < it.timestamp) := by omega
    have htr := (itemLt_iff u it).mpr hcc
    exact Bool.noConfusion (htr.symm.trans hmin)

unseal siftUp siftDown in
/-- Witness for C5: a CRITICAL item submitted after a NORMAL one is
returned first and is minimal in the queue at the pop. -/
theorem taskqueue_pop_min_witness :
    (mkItem Priority.CRITICAL "b" 2) ∈
      handleStarvation 60
        ((submit 2 (submit 2 [] Priority.NORMAL "a" 1).2 Priority.CRITICAL "b" 2).2) 3 ∧
    ∀ u ∈ handleStarvation 60
        ((submit 2 (submit 2 [] Priority.NORMAL "a" 1).2 Priority.CRITICAL "b" 2).2) 3,
      (mkItem Priority.CRITICAL "b" 2).priority < u.priority ∨
        ((mkItem Priority.CRITICAL "b" 2).priority = u.priority ∧
          (mkItem Priority.CRITICAL "b" 2).timestamp ≤ u.timestamp) :=
  taskqueue_pop_min 2 60 _ 3 (mkItem Priority.CRITICAL "b" 2)
    [mkItem Priority.NORMAL "a" 1]
    (Reach.psubmit Priority.CRITICAL "b" 2
      (Reach.psubmit Priority.NORMAL "a" 1 Reach.empty))
    (by decide)

/-- C6: the starvation sweep replaces every queued item below HIGH whose
age exceeds the threshold by the same item with priority HIGH (timestamp,
id and creation time preserved), leaves every other item unchanged, and
the result is again a valid heap. -/
theorem taskqueue_starvation_boost (thr now : Nat) (q : List TaskItem)
    (hh : IsHeap itemLt q) :
    (handleStarvation thr q now).Perm
      (q.map (fun it =>
        if 1 < it.priority ∧ thr < now - it.created_at then
          { priority := 1, timestamp := it.timestamp, task_id := it.task_id,
            created_at := it.created_at }
        else it)) ∧
    IsHeap itemLt (handleStarvation thr q now) := by
  have hfun : (fun it : TaskItem =>
      if 1 < it.priority ∧ thr < now - it.created_at then
        ({ priority := 1, timestamp := it.timestamp, task_id := it.task_id,
           created_at := it.created_at } : TaskItem)
      else it) = boostItem thr now := by
    funext it
    rfl
  rw [hfun]
  exact ⟨handleStarvation_perm thr now q, handleStarvation_isHeap thr now q hh⟩

/-- Witness for C6 on a reachable two-element queue old enough to boost. -/
theorem taskqueue_starvation_boost_witness :
    (handleStarvation 60
        ((submit 2 (submit 2 [] Priority.NORMAL "a" 1).2 Priority.CRITICAL "b" 2).2)
        100).Perm
      (((submit 2 (submit 2 [] Priority.NORMAL "a" 1).2 Priority.CRITICAL "b" 2).2).map
        (fun it =>
          if 1 < it.priority ∧ 60 < 100 - it.created_at then
            ({ priority := 1, timestamp := it.timestamp, task_id := it.task_id,
               created_at := it.created_at } : TaskItem)
          else it)) ∧
    IsHeap itemLt
      (handleStarvation 60
        ((submit 2 (submit 2 [] Priority.NORMAL "a" 1).2 Priority.CRITICAL "b" 2).2)
        100) :=
  taskqueue_starvation_boost 60 100 _
    (@reach_isHeap 2 60 _
      (Reach.psubmit Priority.CRITICAL "b" 2
        (Reach.psubmit Priority.NORMAL "a" 1 Reach.empty)))

/-- C10: from an empty queue, under any interleaving of submit and
get_next_task calls the queue length never exceeds the configured
capacity, and a submission accepted while the queue is at capacity leaves
the length exactly at capacity (one victim removed, one item added). -/
theorem taskqueue_capacity_invariant (maxSize thr : Nat) (q : List TaskItem)
    (h : Reach maxSize thr q) :
    q.length ≤ maxSize ∧
    (∀ prio tid now, q.length = maxSize →
      (submit maxSize q prio tid now).1 = true →
      (submit maxSize q prio tid now).2.length = maxSize) := by
  refine ⟨reach_length h, ?_⟩
  intro prio tid now hcap hacc
  have hfull : maxSize ≤ q.length := le_of_eq hcap.symm
  by_cases hp : 1 < prio.toNat
  · rw [submit_full_low maxSize q prio tid now hfull hp] at hacc
    simp at hacc
  · cases hd : dropLowestPriority q with
    | none =>
      rw [submit_full_high_none maxSize q prio tid now hfull hp hd] at hacc
      simp at hacc
    | some q2 =>
      rw [submit_full_high_some maxSize q prio tid now hfull hp hd]
      simp only []
      rw [heapPush_length]
      obtain ⟨hlen, hne⟩ := dropLowestPriority_length q hd
      have : q.length ≠ 0 := fun h0 => hne (List.length_eq_zero.mp h0)
      omega

/-- Witness for C10 on a reachable one-element queue at capacity 1. -/
theorem taskqueue_capacity_invariant_witness :
    ((submit 1 [] Priority.NORMAL "a" 0).2).length ≤ 1 :=
  (taskqueue_capacity_invariant 1 60 _
    (Reach.psubmit Priority.NORMAL "a" 0 Reach.empty)).1

/-! ### CacheManager (server/core/managers/cache_manager.py)

`CacheItem` mirrors the dataclass (identifier is its path string).  The
in-memory item dict keyed by path is embedded as a list with pairwise
distinct paths; `del` by key becomes a path filter.  Filesystem deletion
can fail per item; the `deleteOk` oracle tells which `shutil.rmtree` or
`unlink` calls succeed (an exception skips the accounting and the `del`). -/

structure CacheItem where
  path : String
  size_bytes : Nat
  last_accessed : Nat
  pinned : Bool
deriving DecidableEq

def currentUsage (items : List CacheItem) : Nat :=
  (items.map (fun i => i.size_bytes)).sum

def pinnedUsage (items : List CacheItem) : Nat :=
  ((items.filter (fun i => i.pinned)).map (fun i => i.size_bytes)).sum

/-- Shortfall `needed = required_bytes - available_capacity` computed by
`ensure_space` once the free capacity does not cover the request. -/
def neededOf (maxBytes : Nat) (items : List CacheItem) (required : Nat) : Int :=
  (required : Int) - ((maxBytes : Int) - (currentUsage items : Int))

/-- Unpinned items sorted by last-accessed ascending (LRU order). -/
def evictableOf (items : List CacheItem) : List CacheItem :=
  (items.filter (fun i => !i.pinned)).mergeSort
    (fun a b => decide (a.last_accessed ≤ b.last_accessed))

/-- Eviction loop of `ensure_space`: walk the LRU candidates, stop once
enough bytes are freed, delete each item from disk and from the map when
the filesystem call succeeds, skip it otherwise. -/
def evictLoop (deleteOk : CacheItem → Bool) (needed : Int) :
    List CacheItem → List CacheItem → Nat → Nat × List CacheItem
  | [], items, freed => (freed, items)
  | it :: rest, items, freed =>
    if needed ≤ (freed : Int) then (freed, items)
    else if deleteOk it then
      evictLoop deleteOk needed rest
        (items.filter (fun j => decide (j.path ≠ it.path))) (freed + it.size_bytes)
    else evictLoop deleteOk needed rest items freed

/-- Model of `CacheManager.ensure_space`. -/
def ensureSpace (maxBytes : Nat) (deleteOk : CacheItem → Bool)
    (items : List CacheItem) (required : Nat) : Bool × List CacheItem :=
  if (required : Int) ≤ (maxBytes : Int) - (currentUsage items : Int) then (true, items)
  else
    (decide (neededOf maxBytes items required ≤
        ((evictLoop deleteOk (neededOf maxBytes items required)
          (evictableOf items) items 0).1 : Int)),
      (evictLoop deleteOk (neededOf maxBytes items required)
        (evictableOf items) items 0).2)

theorem evictableOf_mem {items : List CacheItem} {e : CacheItem} :
    e ∈ evictableOf items ↔ e ∈ items ∧ e.pinned = false := by
  unfold evictableOf
  rw [(List.mergeSort_perm _ _).mem_iff, List.mem_filter]
  simp

theorem evictLoop_preserves (deleteOk : CacheItem → Bool) (needed : Int) :
    ∀ (ev items : List CacheItem) (freed : Nat),
      (∀ e ∈ ev, e.pinned = false) →
      (∀ x ∈ items, ∀ e ∈ ev, x.path = e.path → x = e) →
      ∀ x ∈ items, x.pinned = true →
        x ∈ (evictLoop deleteOk needed ev items freed).2 := by
  intro ev
  induction ev with
  | nil => intro items freed _ _ x hx _; exact hx
  | cons it rest ih =>
    intro items freed hev hinj x hx hpin
    unfold evictLoop
    split
    · exact hx
    · have hitpin : it.pinned = false := hev it (List.mem_cons_self it rest)
      split
      · apply ih _ _ (fun e he => hev e (List.mem_cons_of_mem it he))
        · intro x2 hx2 e he hpath
          exact hinj x2 (List.mem_filter.mp hx2).1 e (List.mem_cons_of_mem it he) hpath
        · apply List.mem_filter.mpr
          refine ⟨hx, ?_⟩
          simp only [decide_eq_true_eq]
          intro hpath
          have := hinj x hx it (List.mem_cons_self it rest) hpath
          rw [this] at hpin
          rw [hpin] at hitpin
          cases hitpin
        · exact hpin
      · exact ih items freed (fun e he => hev e (List.mem_cons_of_mem it he))
          (fun x2 hx2 e he hpath => hinj x2 hx2 e (List.mem_cons_of_mem it he) hpath)
          x hx hpin

theorem evictLoop_freed_ub (deleteOk : CacheItem → Bool) (needed : Int) :
    ∀ (ev items : List CacheItem) (freed : Nat),
      (evictLoop deleteOk needed ev items freed).1 ≤
        freed + ((ev.map (fun i => i.size_bytes)).sum) := by
  intro ev
  induction ev with
  | nil => intro items freed; simp [evictLoop]
  | cons it rest ih =>
    intro items freed
    unfold evictLoop
    split
    · simp
    · split
      · have := ih (items.filter (fun j => decide (j.path ≠ it.path)))
          (freed + it.size_bytes)
        simp only [List.map_cons, List.sum_cons]
        omega
      · have := ih items freed
        simp only [List.map_cons, List.sum_cons]
        omega

theorem evictLoop_all_ok (deleteOk : CacheItem → Bool) (needed : Int)
    (hok : ∀ e, deleteOk e = true) :
    ∀ (ev items : List CacheItem) (freed : Nat),
      needed ≤ ((evictLoop deleteOk needed ev items freed).1 : Int) ∨
      (evictLoop deleteOk needed ev items freed).1 =
        freed + ((ev.map (fun i => i.size_bytes)).sum) := by
  intro ev
  induction ev with
  | nil => intro items freed; right; simp [evictLoop]
  | cons it rest ih =>
    intro items freed
    unfold evictLoop
    split
    · left; simpa using (by assumption : needed ≤ (freed : Int))
    · rw [if_pos (hok it)]
      rcases ih (items.filter (fun j => decide (j.path ≠ it.path)))
          (freed + it.size_bytes) with h | h
      · exact Or.inl h
      · right
        rw [h]
        simp only [List.map_cons, List.sum_cons]
        omega

theorem usage_split (items : List CacheItem) :
    currentUsage items =
      pinnedUsage items + (((items.filter (fun i => !i.pinned)).map
        (fun i => i.size_bytes)).sum) := by
  induction items with
  | nil => rfl
  | cons it rest ih =>
    cases hpin : it.pinned <;>
      simp [currentUsage, pinnedUsage, List.filter, hpin] at ih ⊢ <;> omega

theorem evictable_sum (items : List CacheItem) :
    ((evictableOf items).map (fun i => i.size_bytes)).sum =
      (((items.filter (fun i => !i.pinned)).map (fun i => i.size_bytes)).sum) := by
  unfold evictableOf
  exact ((List.mergeSort_perm _ _).map _).sum_eq

/-- C2: CacheManager.ensure_space.  With free capacity already covering the
request it answers true and touches nothing; it never removes a pinned
item; and when every attempted filesystem deletion succeeds it answers
true exactly when the request fits inside the quota minus the pinned
footprint. -/
theorem cache_ensure_space (maxBytes : Nat) (deleteOk : CacheItem → Bool)
    (items : List CacheItem) (required : Nat)
    (hnd : (items.map (fun i => i.path)).Nodup) :
    ((required : Int) ≤ (maxBytes : Int) - (currentUsage items : Int) →
      ensureSpace maxBytes deleteOk items required = (true, items)) ∧
    (∀ x ∈ items, x.pinned = true →
      x ∈ (ensureSpace maxBytes deleteOk items required).2) ∧
    ((∀ e, deleteOk e = true) →
      ((ensureSpace maxBytes deleteOk items required).1 = true ↔
        (required : Int) ≤ (maxBytes : Int) - (pinnedUsage items : Int))) := by
  have hinj : ∀ x ∈ items, ∀ y ∈ items, x.path = y.path → x = y := by
    intro x hx y hy hpath
    exact List.inj_on_of_nodup_map hnd hx hy hpath
  refine ⟨?_, ?_, ?_⟩
  · intro h
    unfold ensureSpace
    rw [if_pos h]
  · intro x hx hpin
    unfold ensureSpace
    split
    · exact hx
    · simp only []
      apply evictLoop_preserves deleteOk _ _ _ _
        (fun e he => (evictableOf_mem.mp he).2)
        (fun x2 hx2 e he hpath => hinj x2 hx2 e (evictableOf_mem.mp he).1 hpath)
        x hx hpin
  · intro hok
    unfold ensureSpace
    have hsplit := usage_split items
    have hesum := evictable_sum items
    split
    · simp only []
      constructor
      · intro _
        omega
      · intro _
        trivial
    · next hneg =>
      simp only [decide_eq_true_eq]
      have hub := evictLoop_freed_ub deleteOk (neededOf maxBytes items required)
        (evictableOf items) items 0
      have hall := evictLoop_all_ok deleteOk (neededOf maxBytes items required) hok
        (evictableOf items) items 0
      unfold neededOf at *
      constructor
      · intro hle
        rw [hesum] at hub
        omega
      · intro hfit
        rcases hall with h | h
        · exact h
        · rw [h, hesum]
          omega

/-- Witness for C2: quota 25 over a pinned 10-byte item and an unpinned
20-byte item; a 10-byte request evicts only the unpinned item, keeps the
pinned one, and succeeds since 10 fits in quota minus pinned footprint. -/
theorem cache_ensure_space_witness :
    (∀ x ∈ [CacheItem.mk "m1" 10 5 true, CacheItem.mk "m2" 20 3 false],
      x.pinned = true →
      x ∈ (ensureSpace 25 (fun _ => true)
        [CacheItem.mk "m1" 10 5 true, CacheItem.mk "m2" 20 3 false] 10).2) ∧
    ((ensureSpace 25 (fun _ => true)
        [CacheItem.mk "m1" 10 5 true, CacheItem.mk "m2" 20 3 false] 10).1 = true ↔
      (10 : Int) ≤ (25 : Int) -
        (pinnedUsage [CacheItem.mk "m1" 10 5 true, CacheItem.mk "m2" 20 3 false] : Int)) :=
  ⟨(cache_ensure_space 25 (fun _ => true)
      [CacheItem.mk "m1" 10 5 true, CacheItem.mk "m2" 20 3 false] 10 (by decide)).2.1,
   (cache_ensure_space 25 (fun _ => true)
      [CacheItem.mk "m1" 10 5 true, CacheItem.mk "m2" 20 3 false] 10 (by decide)).2.2
      (fun e => rfl)⟩

/-! ### FallbackManager (server/core/managers/fallback_manager.py)

Per-model circuit breaker dict embedded as a total function with the
`_get_circuit` default state; `execute_with_fallback` is instrumented with
the list of candidates actually invoked and the errors raised, so that the
exhaustion property can be stated about the real trace. -/

structure CircuitState where
  failures : Nat
  last_failure_time : Nat
  is_open : Bool
  open_until : Nat
deriving DecidableEq

structure FBConfig where
  failure_threshold : Nat
  cooldown_seconds : Nat
  reset_interval : Nat
deriving DecidableEq

/-- Default circuit created by `_get_circuit` for an unseen model id. -/
def freshCircuit : CircuitState := ⟨0, 0, false, 0⟩

/-- Model of `FallbackManager._is_circuit_open`: the answer plus the
possibly auto-closed circuit (cooldown elapsed resets the breaker). -/
def isCircuitOpen (now : Nat) (c : CircuitState) : Bool × CircuitState :=
  if c.is_open then
    if c.open_until < now then
      (false, { c with is_open := false, failures := 0 })
    else (true, c)
  else (false, c)

/-- Model of `FallbackManager._record_failure`. -/
def recordFailure (cfg : FBConfig) (now : Nat) (c : CircuitState) : CircuitState :=
  let c1 := if cfg.reset_interval < now - c.last_failure_time
    then { c with failures := 0 } else c
  let c2 := { c1 with failures := c1.failures + 1, last_failure_time := now }
  if cfg.failure_threshold ≤ c2.failures then
    { c2 with is_open := true, open_until := now + cfg.cooldown_seconds }
  else c2

/-- Model of `FallbackManager._record_success`: decay one failure. -/
def recordSuccess (c : CircuitState) : CircuitState :=
  if 0 < c.failures then { c with failures := c.failures - 1 } else c

/-- Pointwise update of the circuit table at one model id. -/
def updCirc (cs : String → CircuitState) (m : String) (c : CircuitState) :
    String → CircuitState :=
  fun k => if k = m then c else cs k

/-- Result of one `execute_with_fallback` call: `result` is the returned
value or the final `raise last_error` (`none` when no candidate was ever
invoked), `circuits` the updated breaker table, `invoked` the candidates
actually called, `errs` the errors they raised, in order. -/
structure FBResult (E R : Type) where
  result : Except (Option E) R
  circuits : String → CircuitState
  invoked : List String
  errs : List E

/-- Model of `FallbackManager.execute_with_fallback`: walk the chain,
skip open circuits, return on first success (after decaying its failure
count), record failures and remember the last error, and raise it when the
chain is exhausted. -/
def execWithFallback {E R : Type} (cfg : FBConfig) (now : Nat)
    (behave : String → Except E R) :
    List String → (String → CircuitState) → Option E → List String → List E →
    FBResult E R
  | [], cs, lastErr, inv, errs => ⟨Except.error lastErr, cs, inv, errs⟩
  | m :: rest, cs, lastErr, inv, errs =>
    if (isCircuitOpen now (cs m)).1 then
      execWithFallback cfg now behave rest
        (updCirc cs m (isCircuitOpen now (cs m)).2) lastErr inv errs
    else
      match behave m with
      | Except.ok r =>
        ⟨Except.ok r,
         updCirc (updCirc cs m (isCircuitOpen now (cs m)).2) m
           (recordSuccess ((updCirc cs m (isCircuitOpen now (cs m)).2) m)),
         inv ++ [m], errs⟩
      | Except.error e =>
        execWithFallback cfg now behave rest
          (updCirc (updCirc cs m (isCircuitOpen now (cs m)).2) m
            (recordFailure cfg now ((updCirc cs m (isCircuitOpen now (cs m)).2) m)))
          (some e) (inv ++ [m]) (errs ++ [e])

theorem execWithFallback_go {E R : Type} (cfg : FBConfig) (now : Nat)
    (behave : String → Except E R) :
    ∀ (chain : List String) (cs : String → CircuitState) (lastErr : Option E)
      (inv : List String) (errs : List E),
      lastErr = errs.getLast? →
      (∀ m ∈ (execWithFallback cfg now behave chain cs lastErr inv errs).invoked,
        ∃ e, behave m = Except.error e) →
      (execWithFallback cfg now behave chain cs lastErr inv errs).result =
        Except.error
          (execWithFallback cfg now behave chain cs lastErr inv errs).errs.getLast? := by
  intro chain
  induction chain with
  | nil =>
    intro cs lastErr inv errs hle _
    simpa [execWithFallback] using hle
  | cons m rest ih =>
    intro cs lastErr inv errs hle hfail
    by_cases hopen : (isCircuitOpen now (cs m)).1 = true
    · have hrw : execWithFallback cfg now behave (m :: rest) cs lastErr inv errs =
          execWithFallback cfg now behave rest
            (updCirc cs m (isCircuitOpen now (cs m)).2) lastErr inv errs := by
        rw [execWithFallback, if_pos hopen]
      rw [hrw] at hfail ⊢
      exact ih _ lastErr inv errs hle hfail
    · cases hbe : behave m with
      | ok r =>
        have hrw : execWithFallback cfg now behave (m :: rest) cs lastErr inv errs =
            ⟨Except.ok r,
             updCirc (updCirc cs m (isCircuitOpen now (cs m)).2) m
               (recordSuccess ((updCirc cs m (isCircuitOpen now (cs m)).2) m)),
             inv ++ [m], errs⟩ := by
          rw [execWithFallback, if_neg hopen, hbe]
        rw [hrw] at hfail
        obtain ⟨e, he⟩ := hfail m (by simp)
        rw [hbe] at he
        cases he
      | error e =>
        have hrw : execWithFallback cfg now behave (m :: rest) cs lastErr inv errs =
            execWithFallback cfg now behave rest
              (updCirc (updCirc cs m (isCircuitOpen now (cs m)).2) m
                (recordFailure cfg now ((updCirc cs m (isCircuitOpen now (cs m)).2) m)))
              (some e) (inv ++ [m]) (errs ++ [e]) := by
          rw [execWithFallback, if_neg hopen, hbe]
        rw [hrw] at hfail ⊢
        exact ih _ (some e) (inv ++ [m]) (errs ++ [e])
          (by rw [List.getLast?_concat]) hfail

/-- C3: execute_with_fallback availability exhaustion.  Whenever every
candidate that gets invoked fails (so each candidate is either skipped on
an open circuit or fails), the call raises exactly the last error
recorded along the chain, `none` standing for the `raise None` of a run
where every candidate was skipped, and it never returns a substituted
value. -/
theorem fallback_exhaustion {E R : Type} (cfg : FBConfig) (now : Nat)
    (behave : String → Except E R) (chain : List String)
    (cs : String → CircuitState)
    (hfail : ∀ m ∈ (execWithFallback cfg now behave chain cs none [] []).invoked,
      ∃ e, behave m = Except.error e) :
    (execWithFallback cfg now behave chain cs none [] []).result =
      Except.error
        (execWithFallback cfg now behave chain cs none [] []).errs.getLast? ∧
    ∀ r, (execWithFallback cfg now behave chain cs none [] []).result ≠
      Except.ok r := by
  have h := execWithFallback_go cfg now behave chain cs none [] [] rfl hfail
  refine ⟨h, ?_⟩
  intro r hc
  rw [h] at hc
  cases hc

/-- Witness for C3: a two-candidate chain where both invocations fail with
error 7 ends in a raise of that error, not a substituted value. -/
theorem fallback_exhaustion_witness :
    (execWithFallback ⟨5, 300, 60⟩ 0 (fun _ => (Except.error 7 : Except Nat Nat))
        ["a", "b"] (fun _ => freshCircuit) none [] []).result =
      Except.error
        ((execWithFallback ⟨5, 300, 60⟩ 0 (fun _ => (Except.error 7 : Except Nat Nat))
          ["a", "b"] (fun _ => freshCircuit) none [] []).errs.getLast?) ∧
    ∀ r, (execWithFallback ⟨5, 300, 60⟩ 0 (fun _ => (Except.error 7 : Except Nat Nat))
        ["a", "b"] (fun _ => freshCircuit) none [] []).result ≠ Except.ok r :=
  fallback_exhaustion ⟨5, 300, 60⟩ 0 (fun _ => (Except.error 7 : Except Nat Nat))
    ["a", "b"] (fun _ => freshCircuit) (fun _ _ => ⟨7, rfl⟩)

/-- C4: circuit breaker state machine.  Recording a failure first zeroes
the count when the previous failure is older than the reset window, then
increments it; when the resulting count reaches the threshold the circuit
opens until now plus the cooldown; and an open-circuit check after the
open-until instant reports the circuit closed with the failure count
reset to zero. -/
theorem circuit_breaker_state (cfg : FBConfig) (now : Nat) (c : CircuitState) :
    ((cfg.reset_interval < now - c.last_failure_time →
        (recordFailure cfg now c).failures = 1) ∧
      (¬ cfg.reset_interval < now - c.last_failure_time →
        (recordFailure cfg now c).failures = c.failures + 1) ∧
      (cfg.failure_threshold ≤ (recordFailure cfg now c).failures →
        (recordFailure cfg now c).is_open = true ∧
        (recordFailure cfg now c).open_until = now + cfg.cooldown_seconds)) ∧
    (c.is_open = true → c.open_until < now →
      (isCircuitOpen now c).1 = false ∧
      (isCircuitOpen now c).2.failures = 0 ∧
      (isCircuitOpen now c).2.is_open = false) := by
  constructor
  · by_cases hr : cfg.reset_interval < now - c.last_failure_time
    · refine ⟨fun _ => ?_, fun hn => absurd hr hn, fun hth => ?_⟩
      · unfold recordFailure
        simp only [if_pos hr]
        split <;> rfl
      · unfold recordFailure at hth ⊢
        simp only [if_pos hr] at hth ⊢
        split at hth
        next h2 =>
          rw [if_pos h2]
          exact ⟨rfl, rfl⟩
        next h2 =>
          simp only [] at hth
          exact absurd hth h2
    · refine ⟨fun h => absurd h hr, fun _ => ?_, fun hth => ?_⟩
      · unfold recordFailure
        simp only [if_neg hr]
        split <;> rfl
      · unfold recordFailure at hth ⊢
        simp only [if_neg hr] at hth ⊢
        split at hth
        next h2 =>
          rw [if_pos h2]
          exact ⟨rfl, rfl⟩
        next h2 =>
          simp only [] at hth
          exact absurd hth h2
  · intro hopen hpast
    unfold isCircuitOpen
    rw [if_pos hopen, if_pos hpast]
    exact ⟨rfl, rfl, rfl⟩

/-- Witness for C4: threshold 1 and reset window 60 — a failure at time
100 on a circuit whose last failure was at time 0 resets to zero, counts
to one, and opens the circuit until 400; a check at time 100 on a circuit
open until 50 reports it closed with zero failures. -/
theorem circuit_breaker_state_witness :
    (recordFailure ⟨1, 300, 60⟩ 100 ⟨2, 0, false, 0⟩).failures = 1 ∧
    (recordFailure ⟨1, 300, 60⟩ 100 ⟨2, 0, false, 0⟩).is_open = true ∧
    (recordFailure ⟨1, 300, 60⟩ 100 ⟨2, 0, false, 0⟩).open_until = 400 ∧
    (isCircuitOpen 100 ⟨3, 0, true, 50⟩).1 = false ∧
    (isCircuitOpen 100 ⟨3, 0, true, 50⟩).2.failures = 0 := by
  have h1 := (circuit_breaker_state ⟨1, 300, 60⟩ 100 ⟨2, 0, false, 0⟩).1
  have h2 := (circuit_breaker_state ⟨1, 300, 60⟩ 100 ⟨3, 0, true, 50⟩).2
  have hf : (recordFailure ⟨1, 300, 60⟩ 100 ⟨2, 0, false, 0⟩).failures = 1 :=
    h1.1 (by decide)
  have hth := h1.2.2 (by rw [hf])
  exact ⟨hf, hth.1, hth.2, (h2 rfl (by decide)).1, (h2 rfl (by decide)).2.1⟩

/-! ### WorkerWatchdog (ai-worker/core/worker_watchdog.py)

The worker dict (insertion-ordered, keyed by worker id) is embedded as an
association list with pairwise distinct keys; `_check_timeouts` iterates
over a snapshot of the entries, reading the live worker through a
first-match lookup, zombifying timed-out workers in place and appending a
replacement registration when `register_worker` admits it. -/

inductive WStatus where
  | idle
  | active
  | zombie
  | terminated
deriving DecidableEq

structure WorkerInfo where
  worker_id : String
  status : WStatus
  current_task : Option String
  started_at : Option Nat
  last_heartbeat : Nat
  timeout_seconds : Nat
deriving DecidableEq

def lookupA : List (String × WorkerInfo) → String → Option WorkerInfo
  | [], _ => none
  | (k, v) :: rest, wid => if k = wid then some v else lookupA rest wid

def updA : List (String × WorkerInfo) → String → (WorkerInfo → WorkerInfo) →
    List (String × WorkerInfo)
  | [], _, _ => []
  | (k, v) :: rest, wid, f =>
    if k = wid then (k, f v) :: rest else (k, v) :: updA rest wid f

/-- Replacement id built by `_handle_timeout`. -/
def replacementId (wid : String) (now : Nat) : String :=
  wid ++ "_replacement_" ++ toString now

/-- Model of `WorkerWatchdog.register_worker`: refuse at max_workers,
otherwise append a fresh IDLE worker with the default timeout. -/
def registerWorker (maxW defT : Nat) (tbl : List (String × WorkerInfo))
    (wid : String) (now : Nat) : Bool × List (String × WorkerInfo) :=
  if maxW ≤ tbl.length then (false, tbl)
  else (true, tbl ++ [(wid, ⟨wid, WStatus.idle, none, none, now, defT⟩)])

/-- Timeout condition of `_check_timeouts`: ACTIVE, started, and the time
since the last heartbeat (not since start) exceeds the budget. -/
def isTimedOut (now : Nat) (w : WorkerInfo) : Bool :=
  decide (w.status = WStatus.active) && w.started_at.isSome &&
    decide (w.timeout_seconds < now - w.last_heartbeat)

/-- Model of `_handle_timeout`: zombify in place (never remove, never kill)
and try to register a replacement. -/
def handleTimeout (maxW defT now : Nat) (tbl : List (String × WorkerInfo))
    (wid : String) : List (String × WorkerInfo) :=
  (registerWorker maxW defT
    (updA tbl wid (fun w => { w with status := WStatus.zombie }))
    (replacementId wid now) now).2

def checkStep (maxW defT now : Nat) (acc : List (String × WorkerInfo))
    (wid : String) : List (String × WorkerInfo) :=
  match lookupA acc wid with
  | none => acc
  | some w => if isTimedOut now w then handleTimeout maxW defT now acc wid else acc

/-- Model of `WorkerWatchdog._check_timeouts`. -/
def checkTimeouts (maxW defT now : Nat) (tbl : List (String × WorkerInfo)) :
    List (String × WorkerInfo) :=
  (tbl.map Prod.fst).foldl (checkStep maxW defT now) tbl

theorem lookupA_updA_self :
    ∀ (tbl : List (String × WorkerInfo)) (wid : String) (f : WorkerInfo → WorkerInfo),
      lookupA (updA tbl wid f) wid = (lookupA tbl wid).map f := by
  intro tbl wid f
  induction tbl with
  | nil => rfl
  | cons p rest ih =>
    obtain ⟨k, v⟩ := p
    by_cases hk : k = wid
    · simp [updA, lookupA, hk]
    · simp [updA, lookupA, hk, ih]

theorem lookupA_updA_other :
    ∀ (tbl : List (String × WorkerInfo)) (wid wid2 : String)
      (f : WorkerInfo → WorkerInfo), wid2 ≠ wid →
      lookupA (updA tbl wid f) wid2 = lookupA tbl wid2 := by
  intro tbl wid wid2 f hne
  have hw : ¬ wid = wid2 := fun h => hne h.symm
  induction tbl with
  | nil => rfl
  | cons p rest ih =>
    obtain ⟨k, v⟩ := p
    by_cases hk : k = wid
    · simp [updA, lookupA, hk, hw]
    · by_cases hk3 : k = wid2
      · simp [updA, lookupA, hk, hk3, hne]
      · simp [updA, lookupA, hk, hk3, ih]

theorem lookupA_append_some :
    ∀ (tbl e : List (String × WorkerInfo)) (wid : String) (v : WorkerInfo),
      lookupA tbl wid = some v → lookupA (tbl ++ e) wid = some v := by
  intro tbl e wid v h
  induction tbl with
  | nil => cases h
  | cons p rest ih =>
    obtain ⟨k, v2⟩ := p
    by_cases hk : k = wid
    · simp [lookupA, hk] at h ⊢
      exact h
    · simp [lookupA, hk] at h ⊢
      exact ih h

theorem updA_length :
    ∀ (tbl : List (String × WorkerInfo)) (wid : String) (f : WorkerInfo → WorkerInfo),
      (updA tbl wid f).length = tbl.length := by
  intro tbl wid f
  induction tbl with
  | nil => rfl
  | cons p rest ih =>
    obtain ⟨k, v⟩ := p
    by_cases hk : k = wid <;> simp [updA, hk, ih]

theorem lookupA_mem_of_nodup :
    ∀ (tbl : List (String × WorkerInfo)), (tbl.map Prod.fst).Nodup →
      ∀ p ∈ tbl, lookupA tbl p.1 = some p.2 := by
  intro tbl
  induction tbl with
  | nil => intro _ p hp; cases hp
  | cons q rest ih =>
    obtain ⟨k, v⟩ := q
    intro hnd p hp
    obtain ⟨hk, hnd2⟩ := List.nodup_cons.mp hnd
    rcases List.mem_cons.mp hp with heq | hp2
    · subst heq
      simp [lookupA]
    · have hne : ¬ k = p.1 := by
        intro h
        exact hk (h ▸ List.mem_map.mpr ⟨p, hp2, rfl⟩)
      simp only [lookupA, if_neg hne]
      exact ih hnd2 p hp2

theorem handleTimeout_length (maxW defT now : Nat)
    (tbl : List (String × WorkerInfo)) (wid : String) :
    (handleTimeout maxW defT now tbl wid).length =
      tbl.length + (if maxW ≤ tbl.length then 0 else 1) := by
  unfold handleTimeout registerWorker
  by_cases h : maxW ≤ tbl.length
  · rw [if_pos (by rw [updA_length]; exact h)]
    simp [updA_length, h]
  · rw [if_neg (by rw [updA_length]; exact h)]
    simp [updA_length, h]

theorem handleTimeout_lookup_self (maxW defT now : Nat)
    (tbl : List (String × WorkerInfo)) (wid : String) {w : WorkerInfo}
    (h : lookupA tbl wid = some w) :
    lookupA (handleTimeout maxW defT now tbl wid) wid =
      some { w with status := WStatus.zombie } := by
  unfold handleTimeout registerWorker
  have hupd : lookupA (updA tbl wid (fun w => { w with status := WStatus.zombie })) wid =
      some { w with status := WStatus.zombie } := by
    rw [lookupA_updA_self, h]
    rfl
  split
  · exact hupd
  · exact lookupA_append_some _ _ _ _ hupd

theorem handleTimeout_lookup_other (maxW defT now : Nat)
    (tbl : List (String × WorkerInfo)) (wid wid2 : String) {v : WorkerInfo}
    (hne : wid2 ≠ wid) (h : lookupA tbl wid2 = some v) :
    lookupA (handleTimeout maxW defT now tbl wid) wid2 = some v := by
  unfold handleTimeout registerWorker
  have hupd : lookupA (updA tbl wid (fun w => { w with status := WStatus.zombie })) wid2 =
      some v := by
    rw [lookupA_updA_other _ _ _ _ hne]
    exact h
  split
  · exact hupd
  · exact lookupA_append_some _ _ _ _ hupd

theorem checkTimeouts_go (maxW defT now : Nat) :
    ∀ (es acc : List (String × WorkerInfo)),
      (es.map Prod.fst).Nodup →
      (∀ p ∈ es, lookupA acc p.1 = some p.2) →
      (∀ p ∈ es, lookupA ((es.map Prod.fst).foldl (checkStep maxW defT now) acc) p.1 =
        some (if isTimedOut now p.2 then { p.2 with status := WStatus.zombie }
          else p.2)) ∧
      (∀ wid v, (∀ p ∈ es, p.1 ≠ wid) → lookupA acc wid = some v →
        lookupA ((es.map Prod.fst).foldl (checkStep maxW defT now) acc) wid = some v) ∧
      ((es.map Prod.fst).foldl (checkStep maxW defT now) acc).length =
        acc.length + min ((es.filter (fun p => isTimedOut now p.2)).length)
          (maxW - acc.length) := by
  intro es
  induction es with
  | nil =>
    intro acc _ _
    refine ⟨by simp, fun wid v _ h => h, by simp⟩
  | cons q rest ih =>
    obtain ⟨wid0, w0⟩ := q
    intro acc hnd hlook
    obtain ⟨hnotin, hnd2⟩ := List.nodup_cons.mp hnd
    have hl0 : lookupA acc wid0 = some w0 :=
      hlook (wid0, w0) (List.mem_cons_self _ _)
    have hrestne : ∀ p ∈ rest, p.1 ≠ wid0 := by
      intro p hp h
      exact hnotin (h ▸ List.mem_map.mpr ⟨p, hp, rfl⟩)
    simp only [List.map_cons, List.foldl_cons]
    cases htime : isTimedOut now w0 with
    | false =>
      have hstep : checkStep maxW defT now acc wid0 = acc := by
        unfold checkStep
        rw [hl0]
        simp [htime]
      rw [hstep]
      obtain ⟨ih1, ih2, ih3⟩ := ih acc hnd2
        (fun p hp => hlook p (List.mem_cons_of_mem _ hp))
      refine ⟨?_, ?_, ?_⟩
      · intro p hp
        rcases List.mem_cons.mp hp with heq | hp2
        · subst heq
          rw [htime]
          exact ih2 wid0 w0 hrestne hl0
        · exact ih1 p hp2
      · intro wid v hne hv
        exact ih2 wid v (fun p hp => hne p (List.mem_cons_of_mem _ hp)) hv
      · rw [ih3]
        simp [List.filter_cons, htime]
    | true =>
      have hstep : checkStep maxW defT now acc wid0 =
          handleTimeout maxW defT now acc wid0 := by
        unfold checkStep
        rw [hl0]
        simp [htime]
      rw [hstep]
      have hlook1 : ∀ p ∈ rest,
          lookupA (handleTimeout maxW defT now acc wid0) p.1 = some p.2 := by
        intro p hp
        exact handleTimeout_lookup_other maxW defT now acc wid0 p.1
          (hrestne p hp) (hlook p (List.mem_cons_of_mem _ hp))
      obtain ⟨ih1, ih2, ih3⟩ := ih (handleTimeout maxW defT now acc wid0) hnd2 hlook1
      refine ⟨?_, ?_, ?_⟩
      · intro p hp
        rcases List.mem_cons.mp hp with heq | hp2
        · subst heq
          rw [htime]
          exact ih2 wid0 _ hrestne
            (handleTimeout_lookup_self maxW defT now acc wid0 hl0)
        · exact ih1 p hp2
      · intro wid v hne hv
        have hne0 : wid ≠ wid0 :=
          fun h => hne (wid0, w0) (List.mem_cons_self _ _) h.symm
        exact ih2 wid v (fun p hp => hne p (List.mem_cons_of_mem _ hp))
          (handleTimeout_lookup_other maxW defT now acc wid0 wid hne0 hv)
      · rw [ih3, handleTimeout_length]
        simp only [List.filter_cons, htime, if_pos, List.length_cons]
        by_cases hcap : maxW ≤ acc.length
        · rw [if_pos hcap]
          omega
        · rw [if_neg hcap]
          omega

/-- C7 (amended): a registered ACTIVE worker with a start time whose time
since last heartbeat exceeds its timeout budget is marked ZOMBIE in place
(never removed, its task never killed), workers that have not timed out
are untouched, and one fresh replacement worker id is registered per
timed-out worker for as long as the table is below max_workers capacity —
at capacity `register_worker` refuses and no replacement is added, as the
length accounting states. -/
theorem worker_timeout_check (maxW defT now : Nat)
    (tbl : List (String × WorkerInfo)) (hnd : (tbl.map Prod.fst).Nodup) :
    (∀ wid w, (wid, w) ∈ tbl → w.status = WStatus.active → w.started_at ≠ none →
      w.timeout_seconds < now - w.last_heartbeat →
      lookupA (checkTimeouts maxW defT now tbl) wid =
        some { w with status := WStatus.zombie }) ∧
    (∀ wid w, (wid, w) ∈ tbl → isTimedOut now w = false →
      lookupA (checkTimeouts maxW defT now tbl) wid = some w) ∧
    (checkTimeouts maxW defT now tbl).length =
      tbl.length + min ((tbl.filter (fun p => isTimedOut now p.2)).length)
        (maxW - tbl.length) := by
  unfold checkTimeouts
  obtain ⟨h1, h2, h3⟩ := checkTimeouts_go maxW defT now tbl tbl hnd
    (lookupA_mem_of_nodup tbl hnd)
  refine ⟨?_, ?_, h3⟩
  · intro wid w hmem hst hstart hto
    have htime : isTimedOut now w = true := by
      unfold isTimedOut
      simp [hst, hto, Option.isSome_iff_ne_none.mpr hstart]
    have hres := h1 (wid, w) hmem
    rw [htime] at hres
    simpa using hres
  · intro wid w hmem htime
    have hres := h1 (wid, w) hmem
    rw [htime] at hres
    simpa using hres

/-- Counterexample to C7 as stated: with max_workers 1, the single ACTIVE
worker times out (heartbeat 10 seconds stale, budget 5 seconds) and is
marked ZOMBIE, but the replacement registration is refused because the
zombified worker keeps the table at capacity — the resulting table is the
lone zombified worker and no replacement id appears. -/
theorem worker_timeout_no_replacement_at_capacity :
    checkTimeouts 1 30 10
        [("w1", ⟨"w1", WStatus.active, some "t", some 0, 0, 5⟩)] =
      [("w1", ⟨"w1", WStatus.zombie, some "t", some 0, 0, 5⟩)] := by
  rfl

/-- Witness for the amended C7: below capacity (max_workers 4) the stale
worker is zombified in place. -/
theorem worker_timeout_check_witness :
    lookupA (checkTimeouts 4 30 10
        [("w1", ⟨"w1", WStatus.active, some "t", some 0, 0, 5⟩)]) "w1" =
      some ⟨"w1", WStatus.zombie, some "t", some 0, 0, 5⟩ :=
  (worker_timeout_check 4 30 10
      [("w1", ⟨"w1", WStatus.active, some "t", some 0, 0, 5⟩)] (by decide)).1
    "w1" ⟨"w1", WStatus.active, some "t", some 0, 0, 5⟩ (by simp)
    rfl (by simp) (by decide)

/-- Six ZOMBIE workers: a zombie count above the higher threshold. -/
def zombieTable6 : List (String × WorkerInfo) :=
  [("z1", ⟨"z1", WStatus.zombie, none, none, 0, 30⟩),
   ("z2", ⟨"z2", WStatus.zombie, none, none, 0, 30⟩),
   ("z3", ⟨"z3", WStatus.zombie, none, none, 0, 30⟩),
   ("z4", ⟨"z4", WStatus.zombie, none, none, 0, 30⟩),
   ("z5", ⟨"z5", WStatus.zombie, none, none, 0, 30⟩),
   ("z6", ⟨"z6", WStatus.zombie, none, none, 0, 30⟩)]

/-- Model of `WorkerWatchdog.get_worker_stats` per-state counting. -/
def countStatus (tbl : List (String × WorkerInfo)) (s : WStatus) : Nat :=
  (tbl.filter (fun p => decide (p.2.status = s))).length

/-- Model of `WorkerWatchdog.health_check` status selection: the code
tests `zombies > 2` (degraded) before the `zombies > 5` (error) branch. -/
def healthStatus (tbl : List (String × WorkerInfo)) : String :=
  if 2 < countStatus tbl WStatus.zombie then "degraded"
  else if 5 < countStatus tbl WStatus.zombie then "error"
  else "ok"

/-- C8 (code bug): health_check can never report "error".  Any zombie
count above the higher threshold 5 is also above the lower threshold 2
and is captured by the "degraded" branch first, so the "error" branch is
dead code: at the failing input of six zombies the code reports
"degraded", and every table reports either "degraded" or "ok". -/
theorem health_check_error_unreachable :
    healthStatus zombieTable6 = "degraded" ∧
    countStatus zombieTable6 WStatus.zombie = 6 ∧
    ∀ tbl, healthStatus tbl = "degraded" ∨ healthStatus tbl = "ok" := by
  refine ⟨rfl, rfl, ?_⟩
  intro tbl
  unfold healthStatus
  by_cases h : 2 < countStatus tbl WStatus.zombie
  · rw [if_pos h]
    exact Or.inl rfl
  · rw [if_neg h, if_neg (by omega)]
    exact Or.inr rfl

/-! ### MemoryWatchdog (server/core/memory_watchdog.py)

Only the soft-limit edge triggering of `_monitor_loop` is modelled: each
poll observes a usage percentage (a rational standing for the float
`psutil.virtual_memory().percent`; the code only compares percentages).
The handler — `_handle_soft_limit`, i.e. the MEMORY_WARNING event, the
garbage-collection pass and the registered callback — is the boolean
`fires` event of a poll. -/

/-- One poll of `_monitor_loop` for the soft limit: whether the handler
fires, and the new `_soft_limit_triggered` flag. -/
def softStep (soft : ℚ) (trig : Bool) (p : ℚ) : Bool × Bool :=
  if soft ≤ p then (if trig then false else true, true)
  else (false, false)

/-- Fire events of a sequence of polls starting from a given flag. -/
def softRun (soft : ℚ) : List ℚ → Bool → List Bool
  | [], _ => []
  | p :: ps, trig => (softStep soft trig p).1 :: softRun soft ps (softStep soft trig p).2

/-- Fire events of a monitor started with `_soft_limit_triggered = False`. -/
def softFires (soft : ℚ) (ps : List ℚ) : List Bool := softRun soft ps false

theorem softRun_char (soft : ℚ) :
    ∀ (ps : List ℚ) (trig : Bool) (i : Nat) (p : ℚ), ps[i]? = some p →
      ((softRun soft ps trig)[i]? = some true ↔
        (soft ≤ p ∧ (if i = 0 then trig = false
          else ∃ q, ps[i - 1]? = some q ∧ q < soft))) := by
  intro ps
  induction ps with
  | nil => intro trig i p hp; simp at hp
  | cons p0 rest ih =>
    intro trig i p hp
    cases i with
    | zero =>
      simp only [List.getElem?_cons_zero, Option.some.injEq] at hp
      subst hp
      simp only [softRun, List.getElem?_cons_zero, if_pos rfl, Option.some.injEq]
      unfold softStep
      by_cases hle : soft ≤ p0
      · cases trig <;> simp [hle]
      · simp [hle]
    | succ j =>
      simp only [List.getElem?_cons_succ] at hp
      have hrw : (softRun soft (p0 :: rest) trig)[j + 1]? =
          (softRun soft rest (softStep soft trig p0).2)[j]? := by
        simp [softRun]
      rw [hrw, ih (softStep soft trig p0).2 j p hp]
      cases j with
      | zero =>
        have hsnd : ((softStep soft trig p0).2 = false) ↔ p0 < soft := by
          unfold softStep
          by_cases hle : soft ≤ p0
          · simp [hle, not_lt.mpr hle]
          · simp [hle, not_le.mp hle]
        simp only [if_pos rfl, Nat.add_sub_cancel, List.getElem?_cons_zero]
        rw [hsnd]
        constructor
        · rintro ⟨h1, h2⟩
          exact ⟨h1, p0, rfl, h2⟩
        · rintro ⟨h1, q, hq, h2⟩
          cases hq
          exact ⟨h1, h2⟩
      | succ k =>
        simp only [if_neg (Nat.succ_ne_zero k), if_neg (Nat.succ_ne_zero (k + 1)),
          Nat.add_sub_cancel, List.getElem?_cons_succ]

theorem softFires_char (soft : ℚ) (ps : List ℚ) (i : Nat) (p : ℚ)
    (hp : ps[i]? = some p) :
    ((softFires soft ps)[i]? = some true ↔
      (soft ≤ p ∧ (i = 0 ∨ ∃ q, ps[i - 1]? = some q ∧ q < soft))) := by
  rw [softFires, softRun_char soft ps false i p hp]
  by_cases hi : i = 0
  · simp [hi]
  · simp [hi]

/-- C9: the soft-limit handler (event, gc pass and callback) fires on a
poll exactly when the observed usage is at or above the soft limit and no
poll has fired it since usage was last observed strictly below the limit:
once per upward crossing, never repeatedly while usage stays at or above,
and again only after a poll below the threshold re-arms it. -/
theorem memory_soft_limit_edge (soft : ℚ) (ps : List ℚ) (i : Nat) (p : ℚ)
    (hp : ps[i]? = some p) :
    ((softFires soft ps)[i]? = some true ↔
      (soft ≤ p ∧
        ¬ ∃ j, j < i ∧ (∀ k q, j ≤ k → k < i → ps[k]? = some q → soft ≤ q) ∧
          (softFires soft ps)[j]? = some true)) := by
  have hilen : i < ps.length := (List.getElem?_eq_some.mp hp).1
  constructor
  · intro hfire
    obtain ⟨hle, hcase⟩ := (softFires_char soft ps i p hp).mp hfire
    refine ⟨hle, ?_⟩
    rintro ⟨j, hji, hwin, hjf⟩
    have hi0 : i ≠ 0 := by omega
    rcases hcase with hcase | ⟨q, hq, hqlt⟩
    · exact hi0 hcase
    · have hqge : soft ≤ q := hwin (i - 1) q (by omega) (by omega) hq
      exact absurd hqlt (not_lt.mpr hqge)
  · rintro ⟨hle, hno⟩
    apply (softFires_char soft ps i p hp).mpr
    refine ⟨hle, ?_⟩
    by_cases hi0 : i = 0
    · exact Or.inl hi0
    right
    have hprev : ∃ q, ps[i - 1]? = some q :=
      ⟨ps[i - 1], List.getElem?_eq_getElem (by omega)⟩
    obtain ⟨q, hq⟩ := hprev
    refine ⟨q, hq, ?_⟩
    by_contra hqge
    have hqge2 : soft ≤ q := not_lt.mp hqge
    exfalso
    apply hno
    have hexists : ∀ j, j < i →
        (∀ k q2, j ≤ k → k < i → ps[k]? = some q2 → soft ≤ q2) →
        ∃ j2, j2 < i ∧
          (∀ k q2, j2 ≤ k → k < i → ps[k]? = some q2 → soft ≤ q2) ∧
          (softFires soft ps)[j2]? = some true := by
      intro j
      induction j with
      | zero =>
        intro hji hwin
        have hq0 : ∃ q0, ps[0]? = some q0 :=
          ⟨ps[0], List.getElem?_eq_getElem (by omega)⟩
        obtain ⟨q0, hq0⟩ := hq0
        refine ⟨0, hji, hwin, ?_⟩
        apply (softFires_char soft ps 0 q0 hq0).mpr
        exact ⟨hwin 0 q0 (Nat.le_refl 0) hji hq0, Or.inl rfl⟩
      | succ k ihk =>
        intro hji hwin
        have hqk : ∃ qk, ps[k]? = some qk :=
          ⟨ps[k], List.getElem?_eq_getElem (by omega)⟩
        obtain ⟨qk, hqk⟩ := hqk
        by_cases hklt : qk < soft
        · have hqk1 : ∃ qk1, ps[k + 1]? = some qk1 :=
            ⟨ps[k + 1], List.getElem?_eq_getElem (by omega)⟩
          obtain ⟨qk1, hqk1⟩ := hqk1
          refine ⟨k + 1, hji, hwin, ?_⟩
          apply (softFires_char soft ps (k + 1) qk1 hqk1).mpr
          refine ⟨hwin (k + 1) qk1 (Nat.le_refl _) hji hqk1, Or.inr ?_⟩
          exact ⟨qk, by simpa using hqk, hklt⟩
        · apply ihk (by omega)
          intro k2 q2 hk2 hk2i hq2
          by_cases hk2k : k2 = k
          · subst hk2k
            rw [hqk] at hq2
            cases hq2
            exact not_lt.mp hklt
          · exact hwin k2 q2 (by omega) hk2i hq2
    have hwin1 : ∀ k q2, i - 1 ≤ k → k < i → ps[k]? = some q2 → soft ≤ q2 := by
      intro k q2 hk hki hq2
      have hk1 : k = i - 1 := by omega
      subst hk1
      rw [hq] at hq2
      cases hq2
      exact hqge2
    exact hexists (i - 1) (by omega) hwin1

/-- Witness for C9: soft limit 75 over the polls 80, 80, 50, 80 — the
fourth poll is a fresh upward crossing and fires. -/
theorem memory_soft_limit_edge_witness :
    (([80, 80, 50, 80] : List ℚ)[3]? = some 80) ∧
    (((softFires 75 [80, 80, 50, 80])[3]? = some true) ↔
      ((75 : ℚ) ≤ 80 ∧
        ¬ ∃ j, j < 3 ∧
          (∀ k q, j ≤ k → k < 3 → ([80, 80, 50, 80] : List ℚ)[k]? = some q →
            (75 : ℚ) ≤ q) ∧
          (softFires 75 [80, 80, 50, 80])[j]? = some true)) :=
  ⟨rfl, memory_soft_limit_edge 75 [80, 80, 50, 80] 3 80 rfl⟩

end Lyra
